import Mathlib

/-!
Verification development for the scene_lab repository: the world-editor
transform manipulation (`src/src/world_editor.cpp`) and the
reflection-driven FlatBuffer record editor
(`src/include/world_editor/flatbuffer_editor.h`).

Conventions of the shallow embedding: machine floats are modelled exactly
where only control flow and field-write behaviour matter (`ℚ` for the
transform arithmetic), byte buffers are `List ℕ`, and C++ out-parameter
functions that can fail return `Option` / `Except` values.
-/

namespace SceneLab

/-! ### Transform manipulation (`src/src/world_editor.cpp`) -/

/-- A 3-component vector (`mathfu::vec3` and the generated `Vec3` struct),
components modelled as exact rationals. -/
structure Vec3 where
  x : ℚ
  y : ℚ
  z : ℚ
  deriving DecidableEq, Repr

instance : Add Vec3 :=
  ⟨fun a b => ⟨a.x + b.x, a.y + b.y, a.z + b.z⟩⟩

instance : Sub Vec3 :=
  ⟨fun a b => ⟨a.x - b.x, a.y - b.y, a.z - b.z⟩⟩

instance : Neg Vec3 :=
  ⟨fun a => ⟨-a.x, -a.y, -a.z⟩⟩

/-- Scale a vector by a scalar (`vec3 * float`). -/
def Vec3.scale (v : Vec3) (s : ℚ) : Vec3 :=
  ⟨v.x * s, v.y * s, v.z * s⟩

/-- `mathfu::vec3::DotProduct`. -/
def Vec3.dot (a b : Vec3) : ℚ :=
  a.x * b.x + a.y * b.y + a.z * b.z

/-- `WorldEditor::input_mode_` values (world_editor.h / world_editor.cpp). -/
inductive InputMode where
  | kMoving
  | kEditing
  | kDragging
  deriving DecidableEq, Repr

/-- The keyboard keys `ModifyTransformBasedOnInput` reads
(FPLK_i .. FPLK_0 and the shift keys used by `PreciseMovement`). -/
inductive EdKey where
  | ki | kk | kj | kl | kp | kSemicolon
  | ku | ko | ky | kh | kn | km
  | kEquals | kMinus | k0
  | kLShift | kRShift
  deriving DecidableEq, Repr

/-- The slice of `WorldEditor` state and external collaborator state read by
one call to `ModifyTransformBasedOnInput`: the input mode, the controller's
key states, the mouse ray (origin and already-normalized direction, as
produced by `GetMouseWorldRay`; normalization itself is external math), the
drag bookkeeping, the configuration speeds, and the horizontal camera frame
used by `GlobalFromHorizontal`. -/
structure EditorEnv where
  inputMode : InputMode
  keyIsDown : EdKey → Bool
  mouseRayOrigin : Vec3
  mouseRayDir : Vec3
  dragPoint : Vec3
  dragOffset : Vec3
  objectMovementSpeed : ℚ
  objectAngularSpeed : ℚ
  objectScaleSpeed : ℚ
  preciseMovementScale : ℚ
  horizontalForward : Vec3
  horizontalRight : Vec3
  cameraUp : Vec3

/-- The `TransformDef` flatbuffer table as seen by
`ModifyTransformBasedOnInput`: position, orientation (Euler angles) and
scale. -/
structure TransformDef where
  position : Vec3
  orientation : Vec3
  scale : Vec3
  deriving DecidableEq, Repr

/-- `WorldEditor::IntersectRayToPlane` (world_editor.cpp lines 530-552).
Returning `some p` models `return true` with `*intersection_point = p`;
`none` models `return false`.  Note the source quirk: when the ray origin is
within 0.001 of the plane, the *vector from the plane point to the origin*
is returned as the intersection point. -/
def intersectRayToPlane (rayOrigin rayDirection pointOnPlane planeNormal : Vec3) :
    Option Vec3 :=
  let rayOriginToPlane := rayOrigin - pointOnPlane
  let distFromRayOriginToPlane := Vec3.dot rayOriginToPlane planeNormal
  let lenRat := Vec3.dot rayDirection (-planeNormal)
  if distFromRayOriginToPlane < 1 / 1000 then
    some rayOriginToPlane
  else if lenRat < 1 / 1000 then
    none
  else
    some (rayOrigin + (rayDirection.scale (distFromRayOriginToPlane * 1 / lenRat)))

/-- `WorldEditor::PreciseMovement` (world_editor.cpp lines 515-522). -/
def EditorEnv.preciseMovement (e : EditorEnv) : Bool :=
  e.keyIsDown .kLShift || e.keyIsDown .kRShift

/-- `WorldEditor::GlobalFromHorizontal` (world_editor.cpp lines 524-528). -/
def EditorEnv.globalFromHorizontal (e : EditorEnv) (forward right up : ℚ) : Vec3 :=
  e.horizontalForward.scale forward + e.horizontalRight.scale right +
    e.cameraUp.scale up

/-- `WorldEditor::ModifyTransformBasedOnInput` (world_editor.cpp lines
592-696).  Returns the C++ `bool` result paired with the final contents of
the `TransformDef` out-parameter. -/
def modifyTransformBasedOnInput (e : EditorEnv) (t : TransformDef) :
    Bool × TransformDef :=
  if e.inputMode = InputMode.kDragging then
    match intersectRayToPlane e.mouseRayOrigin e.mouseRayDir e.dragPoint
        ⟨0, 0, 1⟩ with
    | some intersect =>
        let newPos := intersect + e.dragOffset
        (true, { t with position := newPos })
    | none => (false, t)
  else
    let movementScale : ℚ :=
      if e.preciseMovement then e.preciseMovementScale else 1
    let moveSpeed := movementScale * e.objectMovementSpeed
    let angularSpeed := movementScale * e.objectAngularSpeed
    let fwdSpeed := (if e.keyIsDown .ki then moveSpeed else 0) -
      (if e.keyIsDown .kk then moveSpeed else 0)
    let rightSpeed := (if e.keyIsDown .kl then moveSpeed else 0) -
      (if e.keyIsDown .kj then moveSpeed else 0)
    let upSpeed := (if e.keyIsDown .kp then moveSpeed else 0) -
      (if e.keyIsDown .kSemicolon then moveSpeed else 0)
    let rollSpeed := (if e.keyIsDown .ku then angularSpeed else 0) -
      (if e.keyIsDown .ko then angularSpeed else 0)
    let pitchSpeed := (if e.keyIsDown .ky then angularSpeed else 0) -
      (if e.keyIsDown .kh then angularSpeed else 0)
    let yawSpeed := (if e.keyIsDown .kn then angularSpeed else 0) -
      (if e.keyIsDown .km then angularSpeed else 0)
    let scaleSpeed : ℚ :=
      if e.keyIsDown .kEquals then e.objectScaleSpeed
      else if e.keyIsDown .kMinus then 1 / e.objectScaleSpeed
      else 1
    let position :=
      t.position + e.globalFromHorizontal fwdSpeed rightSpeed upSpeed
    let newOrientation : Vec3 :=
      ⟨t.orientation.x + pitchSpeed, t.orientation.y + rollSpeed,
        t.orientation.z + yawSpeed⟩
    let scalePair : Vec3 × ℚ :=
      if e.keyIsDown .k0 then (⟨1, 1, 1⟩, 0)
      else (⟨t.scale.x * scaleSpeed, t.scale.y * scaleSpeed,
        t.scale.z * scaleSpeed⟩, scaleSpeed)
    if fwdSpeed ≠ 0 ∨ rightSpeed ≠ 0 ∨ upSpeed ≠ 0 ∨ yawSpeed ≠ 0 ∨
        rollSpeed ≠ 0 ∨ pitchSpeed ≠ 0 ∨ scalePair.2 ≠ 1 then
      (true, ⟨position, newOrientation, scalePair.1⟩)
    else
      (false, t)

/-- An environment with no input: editing mode, no key held, unit speeds. -/
def envNoInput : EditorEnv where
  inputMode := .kEditing
  keyIsDown := fun _ => false
  mouseRayOrigin := ⟨0, 0, 0⟩
  mouseRayDir := ⟨0, 0, -1⟩
  dragPoint := ⟨0, 0, 0⟩
  dragOffset := ⟨0, 0, 0⟩
  objectMovementSpeed := 1
  objectAngularSpeed := 1
  objectScaleSpeed := 2
  preciseMovementScale := 1
  horizontalForward := ⟨0, 1, 0⟩
  horizontalRight := ⟨1, 0, 0⟩
  cameraUp := ⟨0, 0, 1⟩

/-- A sample transform. -/
def sampleTransform : TransformDef where
  position := ⟨5, 6, 7⟩
  orientation := ⟨1, 2, 3⟩
  scale := ⟨2, 2, 2⟩

/-! ### Field Codec: numeric text rendering and parsing

Modelled from the spec: the implementation file of `FlatbufferEditor` is not
part of `src/` (only its header `flatbuffer_editor.h` is), so the Field
Codec — `ToText` / `ParseText` of spec §4.3 — is modelled from the spec's
words: numeric scalars render as decimal text, bool as `true`/`false`,
parsing accepts an optional leading sign, a decimal point only for floating
fields, and is the inverse of rendering.  Digit extraction is fuel-based so
that every definition evaluates inside the kernel. -/

/-- The character for a decimal digit `d` (`'0'` + d). -/
def digitChar (d : ℕ) : Char := Char.ofNat (48 + d)

/-- Base-`b` digits of `n`, least significant first, driven by explicit
fuel. -/
def digitsAux (b : ℕ) : ℕ → ℕ → List ℕ
  | 0, _ => []
  | fuel + 1, n => if n = 0 then [] else n % b :: digitsAux b fuel (n / b)

/-- Base-`b` digits of `n`, least significant first (`n` itself is always
enough fuel). -/
def natDigits (b n : ℕ) : List ℕ := digitsAux b n n

/-- Value of a least-significant-first digit list in base `b`. -/
def ofDigits (b : ℕ) : List ℕ → ℕ
  | [] => 0
  | d :: ds => d + b * ofDigits b ds

/-- Decimal text of a natural number (most significant digit first). -/
def natToChars (n : ℕ) : List Char :=
  if n = 0 then ['0'] else ((natDigits 10 n).map digitChar).reverse

/-- Numeric value of a decimal digit character, `none` for other
characters. -/
def digitVal (c : Char) : Option ℕ :=
  if 48 ≤ c.toNat ∧ c.toNat ≤ 57 then some (c.toNat - 48) else none

/-- Accumulating decimal parser over digit characters; fails on any
non-digit. -/
def parseDigitsAux : ℕ → List Char → Option ℕ
  | acc, [] => some acc
  | acc, c :: cs =>
    match digitVal c with
    | some d => parseDigitsAux (acc * 10 + d) cs
    | none => none

/-- Parse a non-empty run of decimal digits. -/
def parseNatChars (cs : List Char) : Option ℕ :=
  if cs = [] then none else parseDigitsAux 0 cs

/-- Canonical decimal text of an integer scalar field. -/
def intToChars (i : ℤ) : List Char :=
  if i < 0 then '-' :: natToChars i.natAbs else natToChars i.natAbs

/-- Parse integer text: optional leading sign then decimal digits; a
decimal point or exponent is rejected for integer fields (any non-digit
fails). -/
def parseIntChars (cs : List Char) : Option ℤ :=
  match cs with
  | [] => none
  | c :: rest =>
    if c = '-' then (parseNatChars rest).map (fun n => -(n : ℤ))
    else if c = '+' then (parseNatChars rest).map (fun n => (n : ℤ))
    else (parseNatChars cs).map (fun n => (n : ℤ))

/-- A representable floating value in its shortest round-trippable decimal
form: a sign (kept separately so that negative zero is representable), an
integer part and the fractional digit string.  Modelled from the spec:
"Numeric scalars: shortest round-trippable decimal", with binary floats
identified with their canonical decimal renderings. -/
structure FloatVal where
  sign : Bool
  ip : ℕ
  frac : List ℕ
  deriving DecidableEq, Repr

/-- Validity of a float representation: at least one fractional digit, all
digits below 10. -/
def FloatVal.valid (f : FloatVal) : Bool :=
  decide (f.frac ≠ []) && f.frac.all (fun d => d < 10)

/-- Canonical decimal text of a floating scalar field. -/
def floatToChars (f : FloatVal) : List Char :=
  (if f.sign then ['-'] else []) ++ natToChars f.ip ++
    '.' :: f.frac.map digitChar

/-- Parse a run of digit characters into their values; fails on any
non-digit. -/
def digitVals : List Char → Option (List ℕ)
  | [] => some []
  | c :: cs =>
    match digitVal c, digitVals cs with
    | some d, some ds => some (d :: ds)
    | _, _ => none

/-- Parse the unsigned part of floating text: decimal digits, a point, and
a non-empty run of fractional digits.  (Exponent text, which the permissive
C++ grammar also accepts, never occurs in canonical renderings and is
omitted.) -/
def parseFloatMag (cs : List Char) : Option (ℕ × List ℕ) :=
  if (cs.dropWhile (fun c => c ≠ '.')) = [] then none
  else if (cs.dropWhile (fun c => c ≠ '.')).tail = [] then none
  else
    (parseNatChars (cs.takeWhile (fun c => c ≠ '.'))).bind fun ip =>
      (digitVals (cs.dropWhile (fun c => c ≠ '.')).tail).map fun fr =>
        (ip, fr)

/-- Parse floating text: optional leading sign then magnitude. -/
def parseFloatChars (cs : List Char) : Option FloatVal :=
  match cs with
  | [] => none
  | c :: rest =>
    if c = '-' then (parseFloatMag rest).map fun p => ⟨true, p.1, p.2⟩
    else if c = '+' then (parseFloatMag rest).map fun p => ⟨false, p.1, p.2⟩
    else (parseFloatMag cs).map fun p => ⟨false, p.1, p.2⟩

/-! ### Balanced-span extraction (`ExtractInlineStructDef`)

Modelled from the spec: "scans from the first `<`, tracking nesting depth,
returns the substring between the opening and its matching `>`; returns
empty on unmatched brackets" (spec §4.3), matching the header comment on
`ExtractInlineStructDef` (flatbuffer_editor.h lines 256-262). -/

/-- Depth-tracking scanner: walks the characters after the opening `<`,
accumulating until the `>` that closes depth 0; `none` if the input ends
first. -/
def scanDepth : List Char → ℕ → List Char → Option (List Char)
  | [], _, _ => none
  | c :: cs, d, acc =>
    if c = '>' then
      if d = 0 then some acc else scanDepth cs (d - 1) (acc ++ [c])
    else if c = '<' then scanDepth cs (d + 1) (acc ++ [c])
    else scanDepth cs d (acc ++ [c])

/-- `FlatbufferEditor::ExtractInlineStructDef`: the substring strictly
between the first `<` and its matching `>`, or `""` on mismatch. -/
def extractInlineStructDef (s : String) : String :=
  if (s.data.dropWhile (fun c => c ≠ '<')) = [] then ""
  else
    match scanDepth (s.data.dropWhile (fun c => c ≠ '<')).tail 0 [] with
    | some mid => String.mk mid
    | none => ""

/-- Balanced character sequences: every `<` has a matching `>` and no
unmatched `>` occurs at top level. -/
inductive Bal : List Char → Prop where
  | nil : Bal []
  | chr {c : Char} {xs : List Char} :
      c ≠ '<' → c ≠ '>' → Bal xs → Bal (c :: xs)
  | br {inner rest : List Char} :
      Bal inner → Bal rest → Bal ('<' :: inner ++ '>' :: rest)

/-- A single struct-literal token: balanced, with no top-level separator
(space or comma); nested bracket groups may contain anything balanced. -/
inductive TokSeg : List Char → Prop where
  | nil : TokSeg []
  | chr {c : Char} {xs : List Char} :
      c ≠ '<' → c ≠ '>' → c ≠ ',' → c ≠ ' ' → TokSeg xs → TokSeg (c :: xs)
  | br {inner rest : List Char} :
      Bal inner → TokSeg rest → TokSeg ('<' :: inner ++ '>' :: rest)

/-! ### Field Codec: typed values

Modelled from the spec (§3 Schema Model, §4.3 Field Codec): field types are
scalar (bool / bounded integer / float / enum), string, or struct whose
elements are scalars or nested structs; values are the corresponding typed
payloads. -/

/-- An enum definition: the ordered name/value table of spec §3. -/
structure EnumDef where
  members : List (String × ℤ)
  deriving DecidableEq, Repr

/-- First member with the given value, if any (used by `ToText`). -/
def enumLookupName : List (String × ℤ) → ℤ → Option String
  | [], _ => none
  | p :: ps, v => if p.2 = v then some p.1 else enumLookupName ps v

/-- First member with the given name, if any (used by `ParseText`;
case-sensitive, exact). -/
def enumLookupValue : List (String × ℤ) → String → Option ℤ
  | [], _ => none
  | p :: ps, n => if p.1 = n then some p.2 else enumLookupValue ps n

/-- The parse-failure taxonomy of spec §7. -/
inductive ParseErr where
  | kParseError
  | kMalformedStruct
  | kFieldCountMismatch
  | kInvalidEnumValue
  deriving DecidableEq, Repr

/-- Enum `ToText`: the symbolic name when one maps exactly, else the raw
integer text. -/
def enumToChars (e : EnumDef) (v : ℤ) : List Char :=
  match enumLookupName e.members v with
  | some n => n.data
  | none => intToChars v

/-- Enum `ParseText`: the symbolic name (case-sensitive, exact) or a raw
integer, else `kInvalidEnumValue`. -/
def enumParse (e : EnumDef) (cs : List Char) : Except ParseErr ℤ :=
  match enumLookupValue e.members (String.mk cs) with
  | some v => .ok v
  | none =>
    match parseIntChars cs with
    | some i => .ok i
    | none => .error .kInvalidEnumValue

/-- A usable enum name: non-empty identifier text with no separator or
bracket characters and not itself numeric (FlatBuffers IDL identifiers). -/
def goodEnumName (n : String) : Bool :=
  decide (n.data ≠ []) &&
    n.data.all (fun c =>
      decide (c ≠ '<') && decide (c ≠ '>') && decide (c ≠ ',') &&
        decide (c ≠ ' ')) &&
    (parseIntChars n.data).isNone

/-- Well-formed enum definition: distinct identifier names. -/
def EnumDef.wf (e : EnumDef) : Bool :=
  decide (e.members.map Prod.fst).Nodup &&
    e.members.all (fun p => goodEnumName p.1)

/-- Scalar type tags of the Schema Model. -/
inductive ScalarTy where
  | boolTy
  | intTy (lo hi : ℤ)
  | floatTy
  | enumTy (e : EnumDef)
  deriving DecidableEq, Repr

/-- Field types handled by the codec: scalar, string, or
struct-of-scalars with recursive struct nesting. -/
inductive FieldTy where
  | scalar (k : ScalarTy)
  | str
  | struct (fields : List FieldTy)

/-- Typed field values. -/
inductive Value where
  | vBool (b : Bool)
  | vInt (i : ℤ)
  | vFloat (f : FloatVal)
  | vStr (s : String)
  | vEnum (i : ℤ)
  | vStruct (vs : List Value)

/-- FlatBuffers structs hold only fixed-size members, so strings may not
appear inside a struct. -/
def structElemOk : FieldTy → Bool
  | .str => false
  | _ => true

mutual

/-- Well-formedness of a field type (enum tables sane, struct members
fixed-size). -/
def tyWF : FieldTy → Bool
  | .scalar (.enumTy e) => e.wf
  | .scalar _ => true
  | .str => true
  | .struct fields => tyWFList fields

/-- Well-formedness of a struct's member type list. -/
def tyWFList : List FieldTy → Bool
  | [] => true
  | t :: ts => tyWF t && structElemOk t && tyWFList ts

end

mutual

/-- A value is representable at a field type (integers within the width's
bounds, float representations valid, struct members pointwise). -/
def wellTyped : FieldTy → Value → Bool
  | .scalar .boolTy, .vBool _ => true
  | .scalar (.intTy lo hi), .vInt i => decide (lo ≤ i) && decide (i ≤ hi)
  | .scalar .floatTy, .vFloat f => f.valid
  | .scalar (.enumTy _), .vEnum _ => true
  | .str, .vStr _ => true
  | .struct fields, .vStruct vs => wellTypedList fields vs
  | _, _ => false

/-- Pointwise representability of struct members. -/
def wellTypedList : List FieldTy → List Value → Bool
  | [], [] => true
  | t :: ts, v :: vs => wellTyped t v && wellTypedList ts vs
  | _, _ => false

end

/-- Join rendered struct members with `", "` (`StructToString`
separators). -/
def joinComma : List (List Char) → List Char
  | [] => []
  | [t] => t
  | t :: ts => t ++ ',' :: ' ' :: joinComma ts

mutual

/-- `ToText` of spec §4.3: canonical text per field type; structs render as
`< v1, v2, ..., vn >` in declared field order (`StructToString`,
flatbuffer_editor.h lines 241-244).  Ill-typed combinations render as
empty text (never reached on well-typed data). -/
def toTextChars : FieldTy → Value → List Char
  | .scalar .boolTy, .vBool b => if b then "true".data else "false".data
  | .scalar (.intTy _ _), .vInt i => intToChars i
  | .scalar .floatTy, .vFloat f => floatToChars f
  | .scalar (.enumTy e), .vEnum i => enumToChars e i
  | .str, .vStr s => s.data
  | .struct fields, .vStruct vs =>
    '<' :: ' ' :: (joinComma (toTextList fields vs) ++ [' ', '>'])
  | _, _ => []

/-- Rendered texts of struct members, in declared order. -/
def toTextList : List FieldTy → List Value → List (List Char)
  | t :: ts, v :: vs => toTextChars t v :: toTextList ts vs
  | _, _ => []

end

/-- Append the current token to the accumulator unless it is empty
(runs of separators produce no empty tokens). -/
def pushTok (cur : List Char) (acc : List (List Char)) :
    List (List Char) :=
  if cur = [] then acc else cur :: acc

/-- Split a struct body into comma/whitespace-delimited element texts,
tracking bracket depth so nested struct literals stay single tokens;
`none` on bracket underflow or unclosed brackets. -/
def tokenizeAux : List Char → ℕ → List Char → List (List Char) →
    Option (List (List Char))
  | [], 0, cur, acc => some (pushTok cur acc).reverse
  | [], _ + 1, _, _ => none
  | c :: cs, d, cur, acc =>
    if c = '<' then tokenizeAux cs (d + 1) (cur ++ [c]) acc
    else if c = '>' then
      match d with
      | 0 => none
      | d2 + 1 => tokenizeAux cs d2 (cur ++ [c]) acc
    else if d = 0 ∧ (c = ' ' ∨ c = ',') then
      tokenizeAux cs 0 [] (pushTok cur acc)
    else tokenizeAux cs d (cur ++ [c]) acc

/-- Tokenize a struct body from depth 0. -/
def tokenize (cs : List Char) : Option (List (List Char)) :=
  tokenizeAux cs 0 [] []

mutual

/-- `ParseText` of spec §4.3: permissive inverse of `ToText`.  Struct text
extracts the balanced `<...>` span (unbalanced yields `kMalformedStruct`),
splits it into comma/space-delimited elements, and parses them positionally
against the struct's field list (`kFieldCountMismatch` when counts differ);
scalars parse per kind (`ParseStringIntoStruct`, flatbuffer_editor.h lines
251-254). -/
def parseChars : FieldTy → List Char → Except ParseErr Value
  | .scalar .boolTy, cs =>
    if cs = "true".data then .ok (.vBool true)
    else if cs = "false".data then .ok (.vBool false)
    else .error .kParseError
  | .scalar (.intTy _ _), cs =>
    match parseIntChars cs with
    | some i => .ok (.vInt i)
    | none => .error .kParseError
  | .scalar .floatTy, cs =>
    match parseFloatChars cs with
    | some f => .ok (.vFloat f)
    | none => .error .kParseError
  | .scalar (.enumTy e), cs =>
    match enumParse e cs with
    | .ok i => .ok (.vEnum i)
    | .error err => .error err
  | .str, cs => .ok (.vStr (String.mk cs))
  | .struct fields, cs =>
    if (cs.dropWhile (fun c => c ≠ '<')) = [] then .error .kMalformedStruct
    else
      match scanDepth (cs.dropWhile (fun c => c ≠ '<')).tail 0 [] with
      | none => .error .kMalformedStruct
      | some inner =>
        match tokenize inner with
        | none => .error .kMalformedStruct
        | some toks =>
          if toks.length = fields.length then
            match parseList fields toks with
            | .ok vs => .ok (.vStruct vs)
            | .error err => .error err
          else .error .kFieldCountMismatch

/-- Parse element texts positionally against a struct's field list. -/
def parseList : List FieldTy → List (List Char) →
    Except ParseErr (List Value)
  | [], [] => .ok []
  | t :: ts, c :: cs =>
    match parseChars t c with
    | .error err => .error err
    | .ok v =>
      match parseList ts cs with
      | .error err => .error err
      | .ok vs => .ok (v :: vs)
  | _, _ => .error .kFieldCountMismatch

end

/-! ### Buffer Store: canonical binary encoding

Modelled from the spec (§2 Buffer Store, §4.2): the Record Buffer is an
owned byte sequence holding a schema-encoded root; `Replace` deep-copies
through the Schema Model into a fresh canonical encoding (`CopyTable`,
flatbuffer_editor.h line 161).  Bytes are modelled as naturals; naturals
are length-prefixed base-256 digit strings, strings are length-prefixed
code points, structs are the concatenation of their members. -/

/-- Canonical encoding of a natural: digit count then base-256 digits. -/
def encNat (n : ℕ) : List ℕ :=
  (natDigits 256 n).length :: natDigits 256 n

/-- Canonical encoding of an integer: sign byte then magnitude. -/
def encInt (i : ℤ) : List ℕ :=
  (if i < 0 then 1 else 0) :: encNat i.natAbs

/-- Decode a length-prefixed natural, returning the remaining bytes. -/
def decNat : List ℕ → Option (ℕ × List ℕ)
  | [] => none
  | len :: bs =>
    if bs.length < len then none
    else some (ofDigits 256 (bs.take len), bs.drop len)

/-- Decode a sign byte then magnitude. -/
def decInt : List ℕ → Option (ℤ × List ℕ)
  | [] => none
  | s :: bs =>
    (decNat bs).map fun p =>
      (if s = 1 then -(p.1 : ℤ) else (p.1 : ℤ), p.2)

mutual

/-- Canonical re-encoding of a typed value (the deep copy `CopyTable`
performs through reflection, field by field). -/
def encodeV : Value → List ℕ
  | .vBool b => [if b then 1 else 0]
  | .vInt i => encInt i
  | .vFloat f =>
    (if f.sign then 1 else 0) ::
      (encNat f.ip ++ encNat f.frac.length ++ f.frac)
  | .vStr s => s.data.length :: s.data.map Char.toNat
  | .vEnum i => encInt i
  | .vStruct vs => encodeList vs

/-- Concatenated canonical encodings of struct members. -/
def encodeList : List Value → List ℕ
  | [] => []
  | v :: vs => encodeV v ++ encodeList vs

end

mutual

/-- Schema-guided decoding of one value from the front of a buffer. -/
def decodeV : FieldTy → List ℕ → Option (Value × List ℕ)
  | .scalar .boolTy, b :: bs => some (.vBool (b = 1), bs)
  | .scalar .boolTy, [] => none
  | .scalar (.intTy _ _), bs =>
    (decInt bs).map fun p => (.vInt p.1, p.2)
  | .scalar .floatTy, s :: bs =>
    match decNat bs with
    | some (ip, bs2) =>
      match decNat bs2 with
      | some (len, bs3) =>
        if bs3.length < len then none
        else some (.vFloat ⟨s = 1, ip, bs3.take len⟩, bs3.drop len)
      | none => none
    | none => none
  | .scalar .floatTy, [] => none
  | .scalar (.enumTy _), bs =>
    (decInt bs).map fun p => (.vEnum p.1, p.2)
  | .str, len :: bs =>
    if bs.length < len then none
    else some (.vStr (String.mk ((bs.take len).map Char.ofNat)), bs.drop len)
  | .str, [] => none
  | .struct fields, bs =>
    (decodeList fields bs).map fun p => (.vStruct p.1, p.2)

/-- Schema-guided decoding of a struct's members in order. -/
def decodeList : List FieldTy → List ℕ → Option (List Value × List ℕ)
  | [], bs => some ([], bs)
  | t :: ts, bs =>
    match decodeV t bs with
    | some (v, bs2) =>
      match decodeList ts bs2 with
      | some (vs, bs3) => some (v :: vs, bs3)
      | none => none
    | none => none

end

mutual

/-- Shape agreement between a type and a value: exactly the constructor
correspondence the decoder guarantees (no range constraints). -/
def shape : FieldTy → Value → Bool
  | .scalar .boolTy, .vBool _ => true
  | .scalar (.intTy _ _), .vInt _ => true
  | .scalar .floatTy, .vFloat _ => true
  | .scalar (.enumTy _), .vEnum _ => true
  | .str, .vStr _ => true
  | .struct fields, .vStruct vs => shapeList fields vs
  | _, _ => false

def shapeList : List FieldTy → List Value → Bool
  | [], [] => true
  | t :: ts, v :: vs => shape t v && shapeList ts vs
  | _, _ => false

end

/-- `CopyTable`: deep copy through the Schema Model — decode the buffer and
re-emit the canonical encoding; an undecodable buffer yields empty. -/
def canonBuffer (rootTy : FieldTy) (bs : List ℕ) : List ℕ :=
  match decodeV rootTy bs with
  | some (v, _) => encodeV v
  | none => []

/-! ### Editor state and traversal (Edit Session, Commit Engine)

Modelled from the spec (§3 Edit Session Entry / Committed-Fields Set /
Modified flag, §4.4 Traversal Engine, §4.5 Commit Engine) and the inline
bodies in flatbuffer_editor.h (`SetFlatbufferData`, `ClearEditFields`,
`HasFlatbufferData`).  The traversal's leaf visits are modelled as the
schema-ordered list of field nodes (id, type, current value); the id
scheme of §4.4 keeps them stable across frames. -/

/-- One visited leaf field: stable id, schema type, current buffer value. -/
structure FieldNode where
  id : String
  ty : FieldTy
  val : Value

/-- Look up the pending edit text for an id (`edit_fields_` is an
unordered_map; the session is an association list keyed by id). -/
def lookupEdit : List (String × String) → String → Option String
  | [], _ => none
  | p :: ps, i => if p.1 = i then some p.2 else lookupEdit ps i

/-- Remove the session entry for an id. -/
def removeEdit : List (String × String) → String → List (String × String)
  | [], _ => []
  | p :: ps, i => if p.1 = i then removeEdit ps i else p :: removeEdit ps i

/-- Insert or overwrite the session entry for an id (user typed text). -/
def setEdit (es : List (String × String)) (i : String) (txt : String) :
    List (String × String) :=
  (i, txt) :: removeEdit es i

/-- A variable-length field: its encoded size can change with its value
(strings here; tables/vectors are outside the codec model). -/
def isVarLen : FieldTy → Bool
  | .str => true
  | _ => false

/-- One `VisitField` in `kCommitEdits` mode: a pending entry whose text
differs from the canonical text is parsed; on success the value is written,
the entry removed and the field reported committed, flagging a resize when
a variable-length field changed encoded size; on parse failure the entry is
kept and nothing is written.  Returns (field, session, committed id,
resize). -/
def commitStep (f : FieldNode) (sess : List (String × String)) :
    FieldNode × List (String × String) × Option String × Bool :=
  match lookupEdit sess f.id with
  | none => (f, sess, none, false)
  | some txt =>
    if txt.data = toTextChars f.ty f.val then (f, sess, none, false)
    else
      match parseChars f.ty txt.data with
      | .error _ => (f, sess, none, false)
      | .ok v =>
        (⟨f.id, f.ty, v⟩, removeEdit sess f.id, some f.id,
          isVarLen f.ty &&
            decide ((encodeV v).length ≠ (encodeV f.val).length))

/-- Result of one commit-mode walk: updated fields and session, ids
committed, whether anything was written, the index whose edit forced a
resize (if any), and the indices visited, in order. -/
structure PassOut where
  record : List FieldNode
  session : List (String × String)
  committed : List String
  wrote : Bool
  resizedAt : Option ℕ
  visited : List ℕ

/-- One commit-mode walk from field index `idx`: visits fields in order,
applying `commitStep`; a resize aborts the walk at that point (spec §4.4:
the walk must abort and the caller restarts from the root). -/
def commitPassAux : List FieldNode → List (String × String) → ℕ → PassOut
  | [], sess, _ => ⟨[], sess, [], false, none, []⟩
  | f :: fs, sess, idx =>
    match commitStep f sess with
    | (f2, sess2, cid, res) =>
      if res then
        ⟨f2 :: fs, sess2, cid.toList, cid.isSome, some idx, [idx]⟩
      else
        let out := commitPassAux fs sess2 (idx + 1)
        ⟨f2 :: out.record, out.session, cid.toList ++ out.committed,
          cid.isSome || out.wrote, out.resizedAt, idx :: out.visited⟩

/-- One commit-mode walk from the root. -/
def commitPass (fields : List FieldNode) (sess : List (String × String)) :
    PassOut :=
  commitPassAux fields sess 0

/-- Result of `CommitEditsToFlatbuffer`: final fields and session, all ids
committed, whether anything was written, and each pass's visit trace. -/
structure DriverOut where
  record : List FieldNode
  session : List (String × String)
  committed : List String
  wrote : Bool
  passes : List (List ℕ)

/-- `CommitEditsToFlatbuffer`: run commit passes, restarting from the root
whenever a pass aborts on a resize, until a pass completes (fuel bounds the
restarts; one more than the number of pending edits always suffices, since
an aborting pass has committed at least one edit). -/
def commitDriver : ℕ → List FieldNode → List (String × String) → DriverOut
  | 0, fields, sess => ⟨fields, sess, [], false, []⟩
  | fuel + 1, fields, sess =>
    let out := commitPass fields sess
    match out.resizedAt with
    | some _ =>
      let next := commitDriver fuel out.record out.session
      ⟨next.record, next.session, out.committed ++ next.committed,
        out.wrote || next.wrote, out.visited :: next.passes⟩
    | none => ⟨out.record, out.session, out.committed, out.wrote,
        [out.visited]⟩

/-- One `kCheckEdits` walk: the ids whose pending text differs from the
buffer's canonical text (mutates nothing). -/
def checkPass : List FieldNode → List (String × String) → List String
  | [], _ => []
  | f :: fs, sess =>
    match lookupEdit sess f.id with
    | some txt =>
      if txt.data ≠ toTextChars f.ty f.val then f.id :: checkPass fs sess
      else checkPass fs sess
    | none => checkPass fs sess

/-- The editor instance state: Edit Session Entries, the presentation and
notification sets, the Record Buffer bytes, the decoded field view the
traversal walks, and the flags. -/
structure EditorState where
  editFields : List (String × String)
  editFieldsModified : Bool
  expandedSubtables : List String
  committedFields : List String
  flatbuffer : List ℕ
  record : List FieldNode
  flatbufferModified : Bool

/-- `ClearEditFields` (flatbuffer_editor.h lines 163-166). -/
def clearEditFields (s : EditorState) : EditorState :=
  { s with editFields := [], editFieldsModified := false }

/-- `ClearFlatbufferModifiedFlag`.  Modelled from the spec: resets the
modified flag and clears the committed-fields list (header comment on
`committed_fields_`, lines 305-308). -/
def clearFlatbufferModifiedFlag (s : EditorState) : EditorState :=
  { s with flatbufferModified := false, committedFields := [] }

/-- Pair schema field names and types with decoded values. -/
def mkNodes : List String → List FieldTy → List Value → List FieldNode
  | n :: ns, t :: ts, v :: vs => ⟨n, t, v⟩ :: mkNodes ns ts vs
  | _, _, _ => []

/-- The traversal's root-level field view of a buffer. -/
def recordOfBuffer (rootTy : FieldTy) (names : List String) (bs : List ℕ) :
    List FieldNode :=
  match rootTy with
  | .struct fields =>
    match decodeList fields bs with
    | some (vs, _) => mkNodes names fields vs
    | none => []
  | _ => []

/-- `SetFlatbufferData` (flatbuffer_editor.h lines 54-62): clear the edit
fields and the modified flag, then deep-copy the new data via `CopyTable`,
or clear the buffer when given null. -/
def setFlatbufferData (rootTy : FieldTy) (names : List String)
    (d : Option (List ℕ)) (s : EditorState) : EditorState :=
  let s1 := clearFlatbufferModifiedFlag (clearEditFields s)
  match d with
  | some bs =>
    { s1 with
      flatbuffer := canonBuffer rootTy bs,
      record := recordOfBuffer rootTy names bs }
  | none => { s1 with flatbuffer := [], record := [] }

/-- `HasFlatbufferData` (flatbuffer_editor.h line 67): `size() > 0`. -/
def hasFlatbufferData (s : EditorState) : Bool :=
  decide (s.flatbuffer.length > 0)

/-- `GetFlatbufferCopy`: fails when there is no data, else copies the
buffer out through reflection, which re-canonicalizes it. -/
def getFlatbufferCopy (rootTy : FieldTy) (s : EditorState) :
    Option (List ℕ) :=
  if s.flatbuffer = [] then none
  else some (canonBuffer rootTy s.flatbuffer)

/-- The operations of one editor instance observable by the modified-flag
protocol: buffer replacement, flag clearing, draw-mode text entry,
check-only traversal, and commit. -/
inductive EdOp where
  | setData (d : Option (List ℕ))
  | clearModified
  | draw (edits : List (String × String))
  | check
  | commit

/-- Apply draw-mode text entries to the session. -/
def applyDrawEdits (es : List (String × String)) :
    List (String × String) → List (String × String)
  | [] => es
  | (i, txt) :: rest => applyDrawEdits (setEdit es i txt) rest

/-- One editor operation.  Commit runs `CommitEditsToFlatbuffer` (fuel one
more than the pending-edit count always completes), accumulates the
committed ids, re-encodes the buffer, and raises the modified flag when
anything was written. -/
def applyOp (rootTy : FieldTy) (names : List String) (op : EdOp)
    (s : EditorState) : EditorState :=
  match op with
  | .setData d => setFlatbufferData rootTy names d s
  | .clearModified => clearFlatbufferModifiedFlag s
  | .draw edits => { s with editFields := applyDrawEdits s.editFields edits }
  | .check => s
  | .commit =>
    let out := commitDriver (s.editFields.length + 1) s.record s.editFields
    { s with
      record := out.record,
      editFields := out.session,
      committedFields := out.committed ++ s.committedFields,
      flatbuffer := encodeList (out.record.map FieldNode.val),
      flatbufferModified := s.flatbufferModified || out.wrote }

/-- A sample enum definition with members RED = 0, GREEN = 1. -/
def enumSample : EnumDef := ⟨[("RED", 0), ("GREEN", 1)]⟩

/-- A sample struct field type exercising boundary scalars: 64-bit integer
bounds, floats (including negative zero), an enum, a bool, and a nested
struct. -/
def sampleStructTy : FieldTy :=
  .struct [.scalar (.intTy (-(2 ^ 63)) (2 ^ 63 - 1)), .scalar .floatTy,
    .scalar .floatTy, .scalar (.enumTy enumSample), .scalar .boolTy,
    .struct [.scalar (.intTy (-(2 ^ 63)) (2 ^ 63 - 1))]]

/-- A sample value of `sampleStructTy` holding the minimum 64-bit integer,
`0.0`, negative zero, an unnamed enum value, `true`, and a nested struct
holding the maximum 64-bit integer. -/
def sampleStructVal : Value :=
  .vStruct [.vInt (-(2 ^ 63)), .vFloat ⟨false, 0, [0]⟩,
    .vFloat ⟨true, 0, [0]⟩, .vEnum 7, .vBool true,
    .vStruct [.vInt (2 ^ 63 - 1)]]

/-- If a conditional yields `(true, x)` on one side and `(false, t)` on the
other, a `false` first component forces the second component to be `t`. -/
theorem ite_pair_fst_false {c : Prop} [Decidable c] {α : Type} {x t : α}
    (h : (if c then ((true : Bool), x) else ((false : Bool), t)).1 = false) :
    (if c then ((true : Bool), x) else ((false : Bool), t)).2 = t := by
  by_cases hc : c
  · simp [hc] at h
  · simp [hc]

/-- C10: whenever `WorldEditor::ModifyTransformBasedOnInput` returns
`false`, the `TransformDef` it was given is left completely unchanged — no
position, orientation, or scale field is written; it writes to the
transform only on executions that return `true`. -/
theorem modifyTransform_false_leaves_transform_unchanged
    (e : EditorEnv) (t : TransformDef)
    (h : (modifyTransformBasedOnInput e t).1 = false) :
    (modifyTransformBasedOnInput e t).2 = t := by
  revert h
  unfold modifyTransformBasedOnInput
  split
  · split
    · intro h
      simp at h
    · intro _
      rfl
  · dsimp only
    exact fun h => ite_pair_fst_false h

/-- Witness for C10 at a concrete input: with no key held and not in
dragging mode, the call returns `false` and leaves the transform intact. -/
theorem modifyTransform_false_unchanged_witness :
    (modifyTransformBasedOnInput envNoInput sampleTransform).1 = false ∧
    (modifyTransformBasedOnInput envNoInput sampleTransform).2 =
      sampleTransform :=
  ⟨by
    norm_num [modifyTransformBasedOnInput, envNoInput, sampleTransform,
      EditorEnv.preciseMovement, EditorEnv.globalFromHorizontal, Vec3.scale]
    simp,
    modifyTransform_false_leaves_transform_unchanged envNoInput
      sampleTransform
      (by
        norm_num [modifyTransformBasedOnInput, envNoInput, sampleTransform,
          EditorEnv.preciseMovement, EditorEnv.globalFromHorizontal,
          Vec3.scale]
        simp)⟩

/-! ### Digit codec correctness -/

theorem digitVal_digitChar {d : ℕ} (h : d < 10) :
    digitVal (digitChar d) = some d := by
  interval_cases d <;> decide

theorem digitChar_toNat {d : ℕ} (h : d < 10) :
    (digitChar d).toNat = 48 + d := by
  interval_cases d <;> decide

theorem ofDigits_digitsAux {b : ℕ} (hb : 2 ≤ b) :
    ∀ fuel n, n ≤ fuel → ofDigits b (digitsAux b fuel n) = n := by
  intro fuel
  induction fuel with
  | zero =>
    intro n hn
    interval_cases n
    simp [digitsAux, ofDigits]
  | succ f ih =>
    intro n hn
    by_cases h0 : n = 0
    · subst h0
      simp [digitsAux, ofDigits]
    · have hdiv : n / b ≤ f := by
        have : n / b < n := Nat.div_lt_self (Nat.pos_of_ne_zero h0) (by omega)
        omega
      simp only [digitsAux, if_neg h0, ofDigits, ih _ hdiv]
      exact Nat.mod_add_div n b

theorem digitsAux_lt {b : ℕ} (hb : 0 < b) :
    ∀ fuel n d, d ∈ digitsAux b fuel n → d < b := by
  intro fuel
  induction fuel with
  | zero =>
    intro n d hd
    simp [digitsAux] at hd
  | succ f ih =>
    intro n d hd
    by_cases h0 : n = 0
    · subst h0
      simp [digitsAux] at hd
    · simp only [digitsAux, if_neg h0, List.mem_cons] at hd
      rcases hd with h | h
      · subst h
        exact Nat.mod_lt _ hb
      · exact ih _ _ h

theorem natToChars_ne_nil (n : ℕ) : natToChars n ≠ [] := by
  unfold natToChars
  by_cases h0 : n = 0
  · simp [h0]
  · simp only [if_neg h0, natDigits, ne_eq, List.reverse_eq_nil_iff,
      List.map_eq_nil_iff]
    obtain ⟨m, rfl⟩ := Nat.exists_eq_succ_of_ne_zero h0
    simp [digitsAux]

theorem natToChars_range {n : ℕ} :
    ∀ c ∈ natToChars n, 48 ≤ c.toNat ∧ c.toNat ≤ 57 := by
  intro c hc
  unfold natToChars at hc
  by_cases h0 : n = 0
  · simp [h0] at hc
    subst hc
    decide
  · simp only [if_neg h0, List.mem_reverse, List.mem_map] at hc
    obtain ⟨d, hd, rfl⟩ := hc
    have hlt : d < 10 := digitsAux_lt (by norm_num) _ _ _ hd
    rw [digitChar_toNat hlt]
    omega

theorem parseDigitsAux_map :
    ∀ (ds : List ℕ) (acc : ℕ), (∀ d ∈ ds, d < 10) →
      parseDigitsAux acc (ds.map digitChar) =
        some (ds.foldl (fun a d => a * 10 + d) acc) := by
  intro ds
  induction ds with
  | nil =>
    intro acc _
    simp [parseDigitsAux]
  | cons d rest ih =>
    intro acc hlt
    have hd : d < 10 := hlt d (by simp)
    simp only [List.map_cons, parseDigitsAux, digitVal_digitChar hd,
      List.foldl_cons]
    exact ih _ (fun x hx => hlt x (by simp [hx]))

theorem foldl_reverse_ofDigits :
    ∀ (ds : List ℕ) (acc : ℕ), (ds.reverse).foldl (fun a d => a * 10 + d) acc =
      acc * 10 ^ ds.length + ofDigits 10 ds := by
  intro ds
  induction ds with
  | nil =>
    intro acc
    simp [ofDigits]
  | cons d rest ih =>
    intro acc
    simp only [List.reverse_cons, List.foldl_append, List.foldl_cons,
      List.foldl_nil, ih, ofDigits, List.length_cons]
    ring

theorem parseNat_natToChars (n : ℕ) :
    parseNatChars (natToChars n) = some n := by
  by_cases h0 : n = 0
  · subst h0
    decide
  · have hbound : ∀ d ∈ (natDigits 10 n).reverse, d < 10 := fun d hd =>
      digitsAux_lt (by norm_num) n n d (List.mem_reverse.mp hd)
    unfold parseNatChars
    rw [if_neg (natToChars_ne_nil n)]
    unfold natToChars
    rw [if_neg h0, ← List.map_reverse,
      parseDigitsAux_map ((natDigits 10 n).reverse) 0 hbound,
      foldl_reverse_ofDigits]
    simp [natDigits, ofDigits_digitsAux (by norm_num : (2 : ℕ) ≤ 10) n n le_rfl]

theorem parseInt_intToChars (i : ℤ) :
    parseIntChars (intToChars i) = some i := by
  by_cases hneg : i < 0
  · have hrepr : intToChars i = '-' :: natToChars i.natAbs := by
      unfold intToChars
      rw [if_pos hneg]
    rw [hrepr]
    have h1 : parseIntChars ('-' :: natToChars i.natAbs) =
        (parseNatChars (natToChars i.natAbs)).map (fun n => -(n : ℤ)) := by
      simp [parseIntChars]
    rw [h1, parseNat_natToChars]
    have h2 : ((i.natAbs : ℤ)) = -i :=
      Int.ofNat_natAbs_of_nonpos (le_of_lt hneg)
    simp [h2]
  · have hrepr : intToChars i = natToChars i.natAbs := by
      unfold intToChars
      rw [if_neg hneg]
    obtain ⟨c, cs', hc⟩ : ∃ c cs', natToChars i.natAbs = c :: cs' := by
      cases h : natToChars i.natAbs with
      | nil => exact absurd h (natToChars_ne_nil _)
      | cons c cs' => exact ⟨c, cs', rfl⟩
    have hcr : 48 ≤ c.toNat ∧ c.toNat ≤ 57 :=
      natToChars_range c (by rw [hc]; simp)
    have hcm : c ≠ '-' := by
      intro h
      subst h
      revert hcr
      decide
    have hcp : c ≠ '+' := by
      intro h
      subst h
      revert hcr
      decide
    rw [hrepr, hc]
    have h1 : parseIntChars (c :: cs') =
        (parseNatChars (c :: cs')).map (fun n => (n : ℤ)) := by
      simp [parseIntChars, hcm, hcp]
    rw [h1, ← hc, parseNat_natToChars]
    have h2 : ((i.natAbs : ℤ)) = i :=
      Int.natAbs_of_nonneg (show (0 : ℤ) ≤ i by omega)
    simp [h2]

theorem digitVals_map :
    ∀ (ds : List ℕ), (∀ d ∈ ds, d < 10) →
      digitVals (ds.map digitChar) = some ds := by
  intro ds
  induction ds with
  | nil =>
    intro _
    simp [digitVals]
  | cons d rest ih =>
    intro h
    simp only [List.map_cons, digitVals, digitVal_digitChar (h d (by simp)),
      ih (fun x hx => h x (by simp [hx]))]

theorem takeWhile_append_dot {xs : List Char} (h : ∀ c ∈ xs, c ≠ '.')
    (ys : List Char) :
    (xs ++ '.' :: ys).takeWhile (fun c => c ≠ '.') = xs ∧
      (xs ++ '.' :: ys).dropWhile (fun c => c ≠ '.') = '.' :: ys := by
  induction xs with
  | nil =>
    constructor <;> simp [List.takeWhile, List.dropWhile]
  | cons x rest ih =>
    have hx : x ≠ '.' := h x (by simp)
    have ih2 := ih (fun c hc => h c (by simp [hc]))
    constructor
    · simpa [List.takeWhile, hx] using ih2.1
    · simpa [List.dropWhile, hx] using ih2.2

theorem natToChars_ne_dot (n : ℕ) : ∀ c ∈ natToChars n, c ≠ '.' := by
  intro c hc
  have hr := natToChars_range c hc
  intro h
  subst h
  revert hr
  decide

theorem parseFloatMag_print {ip : ℕ} {frac : List ℕ} (hfr : frac ≠ [])
    (hlt : ∀ d ∈ frac, d < 10) :
    parseFloatMag (natToChars ip ++ '.' :: frac.map digitChar) =
      some (ip, frac) := by
  have htd := takeWhile_append_dot (natToChars_ne_dot ip) (frac.map digitChar)
  unfold parseFloatMag
  rw [htd.1, htd.2]
  rw [if_neg (by simp), if_neg (by simpa using hfr)]
  simp [parseNat_natToChars, digitVals_map _ hlt]

theorem parseFloat_floatToChars {f : FloatVal} (hv : f.valid = true) :
    parseFloatChars (floatToChars f) = some f := by
  obtain ⟨sign, ip, frac⟩ := f
  have hfr : frac ≠ [] := by
    simp [FloatVal.valid] at hv
    exact hv.1
  have hlt : ∀ d ∈ frac, d < 10 := by
    simp [FloatVal.valid] at hv
    exact hv.2
  cases sign with
  | true =>
    have hrepr : floatToChars ⟨true, ip, frac⟩ =
        '-' :: (natToChars ip ++ '.' :: frac.map digitChar) := by
      simp [floatToChars]
    rw [hrepr]
    simp [parseFloatChars, parseFloatMag_print hfr hlt]
  | false =>
    have hrepr : floatToChars ⟨false, ip, frac⟩ =
        natToChars ip ++ '.' :: frac.map digitChar := by
      simp [floatToChars]
    obtain ⟨c, cs', hc⟩ : ∃ c cs', natToChars ip = c :: cs' := by
      cases h : natToChars ip with
      | nil => exact absurd h (natToChars_ne_nil _)
      | cons c cs' => exact ⟨c, cs', rfl⟩
    have hcr : 48 ≤ c.toNat ∧ c.toNat ≤ 57 :=
      natToChars_range c (by rw [hc]; simp)
    have hcm : c ≠ '-' := by
      intro h
      subst h
      revert hcr
      decide
    have hcp : c ≠ '+' := by
      intro h
      subst h
      revert hcr
      decide
    rw [hrepr, hc, List.cons_append]
    have h1 : parseFloatChars (c :: (cs' ++ '.' :: List.map digitChar frac)) =
        (parseFloatMag (c :: (cs' ++ '.' :: List.map digitChar frac))).map
          fun p => (⟨false, p.1, p.2⟩ : FloatVal) := by
      simp [parseFloatChars, hcm, hcp]
    rw [h1, ← List.cons_append, ← hc, parseFloatMag_print hfr hlt]
    rfl

/-! ### Balanced-span scanner correctness -/

theorem scanDepth_skip {inner : List Char} (hb : Bal inner) :
    ∀ d acc post, scanDepth (inner ++ '>' :: post) (d + 1) acc =
      scanDepth post d (acc ++ inner ++ ['>']) := by
  induction hb with
  | nil =>
    intro d acc post
    simp [scanDepth]
  | @chr c xs hlt hgt _ ih =>
    intro d acc post
    simp only [List.cons_append, scanDepth, if_neg hgt, if_neg hlt,
      List.append_eq]
    rw [ih]
    congr 1
    simp
  | @br inner2 rest hinner hrest ih1 ih2 =>
    intro d acc post
    have hshape :
        ('<' :: inner2 ++ '>' :: rest) ++ '>' :: post =
          '<' :: (inner2 ++ '>' :: (rest ++ '>' :: post)) := by
      simp
    rw [hshape]
    have hstep :
        scanDepth ('<' :: (inner2 ++ '>' :: (rest ++ '>' :: post))) (d + 1)
            acc =
          scanDepth (inner2 ++ '>' :: (rest ++ '>' :: post)) (d + 2)
            (acc ++ ['<']) := by
      simp [scanDepth]
    rw [hstep, ih1 (d + 1), ih2 d]
    congr 1
    simp

theorem scanDepth_match {mid : List Char} (hb : Bal mid) :
    ∀ acc post, scanDepth (mid ++ '>' :: post) 0 acc = some (acc ++ mid) := by
  induction hb with
  | nil =>
    intro acc post
    simp [scanDepth]
  | @chr c xs hlt hgt _ ih =>
    intro acc post
    simp only [List.cons_append, scanDepth, if_neg hgt, if_neg hlt,
      List.append_eq]
    rw [ih]
    congr 1
    simp
  | @br inner2 rest hinner hrest ih1 ih2 =>
    intro acc post
    have hshape :
        ('<' :: inner2 ++ '>' :: rest) ++ '>' :: post =
          '<' :: (inner2 ++ '>' :: (rest ++ '>' :: post)) := by
      simp
    rw [hshape]
    have hstep :
        scanDepth ('<' :: (inner2 ++ '>' :: (rest ++ '>' :: post))) 0 acc =
          scanDepth (inner2 ++ '>' :: (rest ++ '>' :: post)) 1
            (acc ++ ['<']) := by
      simp [scanDepth]
    rw [hstep, scanDepth_skip hinner 0, ih2]
    congr 1
    simp

theorem scanDepth_none_of_no_gt :
    ∀ cs : List Char, '>' ∉ cs → ∀ d acc, scanDepth cs d acc = none := by
  intro cs
  induction cs with
  | nil =>
    intro _ d acc
    simp [scanDepth]
  | cons c rest ih =>
    intro hmem d acc
    have hc : c ≠ '>' := fun h => hmem (by simp [h])
    have hrest : '>' ∉ rest := fun h => hmem (by simp [h])
    by_cases hl : c = '<'
    · simp [scanDepth, hc, hl, ih hrest]
    · simp [scanDepth, hc, hl, ih hrest]

theorem dropWhile_until_lt {pre : List Char} (h : '<' ∉ pre) :
    ∀ rest : List Char,
      (pre ++ '<' :: rest).dropWhile (fun c => c ≠ '<') = '<' :: rest := by
  induction pre with
  | nil =>
    intro rest
    simp [List.dropWhile]
  | cons p ps ih =>
    intro rest
    have hp : p ≠ '<' := fun hq => h (by simp [hq])
    have hps : '<' ∉ ps := fun hq => h (by simp [hq])
    rw [List.cons_append, List.dropWhile_cons, if_pos (by simp [hp])]
    exact ih hps rest

/-- C5: `ExtractInlineStructDef` scans from the first `<` tracking nesting
depth and returns the substring strictly between that `<` and its matching
`>`; on `"< 1, < 2, 3 >, 4 >"` it returns `" 1, < 2, 3 >, 4 "`, and on
input with unmatched brackets such as `"< 1, 2"` it returns the empty
string. -/
theorem extractInlineStructDef_balanced_span :
    (∀ pre mid post : List Char, '<' ∉ pre → Bal mid →
      extractInlineStructDef (String.mk (pre ++ '<' :: (mid ++ '>' :: post))) =
        String.mk mid) ∧
    (∀ s : String, '>' ∉ s.data → extractInlineStructDef s = "") ∧
    extractInlineStructDef "< 1, < 2, 3 >, 4 >" = " 1, < 2, 3 >, 4 " ∧
    extractInlineStructDef "< 1, 2" = "" := by
  refine ⟨?_, ?_, by decide, by decide⟩
  · intro pre mid post hpre hmid
    unfold extractInlineStructDef
    have hdata : (String.mk (pre ++ '<' :: (mid ++ '>' :: post))).data =
        pre ++ '<' :: (mid ++ '>' :: post) := rfl
    rw [hdata, dropWhile_until_lt hpre, if_neg (by simp), List.tail_cons,
      scanDepth_match hmid]
    simp
  · intro s hs
    unfold extractInlineStructDef
    cases hdrop : s.data.dropWhile (fun c => c ≠ '<') with
    | nil => simp
    | cons c rest =>
      have hsub : rest ⊆ s.data := by
        intro x hx
        have h1 : x ∈ c :: rest := by simp [hx]
        rw [← hdrop] at h1
        exact (List.dropWhile_sublist _).subset h1
      have hrest : '>' ∉ rest := fun h => hs (hsub h)
      rw [if_neg (by simp), List.tail_cons,
        scanDepth_none_of_no_gt rest hrest 0 []]

/-- Witness for C5 at concrete inputs: the general matched-span clause
applied to `"a<b>c"`. -/
theorem extractInlineStructDef_witness :
    extractInlineStructDef (String.mk (['a'] ++ '<' :: (['b'] ++ '>' :: ['c']))) =
      String.mk ['b'] :=
  extractInlineStructDef_balanced_span.1 ['a'] ['b'] ['c'] (by decide)
    (Bal.chr (by decide) (by decide) Bal.nil)

/-! ### Token and balance utilities -/

theorem bal_append {a b : List Char} (ha : Bal a) (hb : Bal b) :
    Bal (a ++ b) := by
  induction ha with
  | nil => simpa
  | @chr c xs h1 h2 _ ih =>
    rw [List.cons_append]
    exact Bal.chr h1 h2 ih
  | @br inner rest hi hr ih1 ih2 =>
    have heq : ('<' :: inner ++ '>' :: rest) ++ b =
        '<' :: inner ++ '>' :: (rest ++ b) := by
      simp
    rw [heq]
    exact Bal.br hi ih2

theorem tokSeg_bal {t : List Char} (ht : TokSeg t) : Bal t := by
  induction ht with
  | nil => exact Bal.nil
  | chr h1 h2 h3 h4 _ ih => exact Bal.chr h1 h2 ih
  | br hi _ ih => exact Bal.br hi ih

theorem chars_tokSeg {cs : List Char}
    (h : ∀ c ∈ cs, c ≠ '<' ∧ c ≠ '>' ∧ c ≠ ',' ∧ c ≠ ' ') : TokSeg cs := by
  induction cs with
  | nil => exact TokSeg.nil
  | cons c rest ih =>
    have hc := h c (by simp)
    exact TokSeg.chr hc.1 hc.2.1 hc.2.2.1 hc.2.2.2
      (ih fun x hx => h x (by simp [hx]))

theorem natToChars_not_special (n : ℕ) :
    ∀ c ∈ natToChars n, c ≠ '<' ∧ c ≠ '>' ∧ c ≠ ',' ∧ c ≠ ' ' := by
  intro c hc
  have hr := natToChars_range c hc
  refine ⟨?_, ?_, ?_, ?_⟩ <;>
    (intro h; subst h; revert hr; decide)

theorem intToChars_not_special (i : ℤ) :
    ∀ c ∈ intToChars i, c ≠ '<' ∧ c ≠ '>' ∧ c ≠ ',' ∧ c ≠ ' ' := by
  intro c hc
  unfold intToChars at hc
  by_cases hneg : i < 0
  · rw [if_pos hneg] at hc
    rcases List.mem_cons.mp hc with h | h
    · subst h
      exact ⟨by decide, by decide, by decide, by decide⟩
    · exact natToChars_not_special _ c h
  · rw [if_neg hneg] at hc
    exact natToChars_not_special _ c hc

theorem digitChar_not_special {d : ℕ} (hd : d < 10) :
    digitChar d ≠ '<' ∧ digitChar d ≠ '>' ∧ digitChar d ≠ ',' ∧
      digitChar d ≠ ' ' := by
  have hr : 48 ≤ (digitChar d).toNat ∧ (digitChar d).toNat ≤ 57 := by
    rw [digitChar_toNat hd]
    omega
  refine ⟨?_, ?_, ?_, ?_⟩ <;>
    (intro h; rw [h] at hr; revert hr; decide)

theorem floatToChars_not_special {f : FloatVal} (hv : f.valid = true) :
    ∀ c ∈ floatToChars f, c ≠ '<' ∧ c ≠ '>' ∧ c ≠ ',' ∧ c ≠ ' ' := by
  obtain ⟨sign, ip, frac⟩ := f
  have hlt : ∀ d ∈ frac, d < 10 := by
    simp [FloatVal.valid] at hv
    exact hv.2
  intro c hc
  simp only [floatToChars, List.append_assoc, List.mem_append,
    List.mem_cons, List.mem_map] at hc
  rcases hc with h | h | h | ⟨d, hd, rfl⟩
  · cases sign with
    | true =>
      simp at h
      subst h
      exact ⟨by decide, by decide, by decide, by decide⟩
    | false => simp at h
  · exact natToChars_not_special _ c h
  · subst h
    exact ⟨by decide, by decide, by decide, by decide⟩
  · exact digitChar_not_special (hlt d hd)

/-! ### Enum codec correctness -/

theorem enumLookupName_mem :
    ∀ (ms : List (String × ℤ)) (v : ℤ) (n : String),
      enumLookupName ms v = some n → (n, v) ∈ ms := by
  intro ms
  induction ms with
  | nil =>
    intro v n h
    simp [enumLookupName] at h
  | cons p ps ih =>
    intro v n h
    obtain ⟨pn, pv⟩ := p
    unfold enumLookupName at h
    by_cases hv : pv = v
    · rw [if_pos hv] at h
      injection h with h1
      subst h1
      subst hv
      exact List.mem_cons_self _ _
    · rw [if_neg hv] at h
      exact List.mem_cons_of_mem _ (ih v n h)

theorem enumLookupValue_mem :
    ∀ (ms : List (String × ℤ)) (s : String) (x : ℤ),
      enumLookupValue ms s = some x → (s, x) ∈ ms := by
  intro ms
  induction ms with
  | nil =>
    intro s x h
    simp [enumLookupValue] at h
  | cons p ps ih =>
    intro s x h
    obtain ⟨pn, pv⟩ := p
    unfold enumLookupValue at h
    by_cases hn : pn = s
    · rw [if_pos hn] at h
      injection h with h1
      subst h1
      subst hn
      exact List.mem_cons_self _ _
    · rw [if_neg hn] at h
      exact List.mem_cons_of_mem _ (ih s x h)

theorem enumLookupValue_of_mem_nodup :
    ∀ (ms : List (String × ℤ)), (ms.map Prod.fst).Nodup →
      ∀ (n : String) (v : ℤ), (n, v) ∈ ms →
        enumLookupValue ms n = some v := by
  intro ms
  induction ms with
  | nil =>
    intro _ n v h
    simp at h
  | cons p ps ih =>
    intro hnd n v hmem
    obtain ⟨pn, pv⟩ := p
    simp only [List.map_cons, List.nodup_cons] at hnd
    rcases List.mem_cons.mp hmem with h | h
    · injection h with h1 h2
      subst h1
      subst h2
      simp [enumLookupValue]
    · have hn_in : n ∈ ps.map Prod.fst :=
        List.mem_map.mpr ⟨(n, v), h, rfl⟩
      have hne : pn ≠ n := fun he => hnd.1 (he ▸ hn_in)
      unfold enumLookupValue
      rw [if_neg hne]
      exact ih hnd.2 n v h

theorem enumParse_enumToChars {e : EnumDef} (hwf : e.wf = true) (v : ℤ) :
    enumParse e (enumToChars e v) = .ok v := by
  have hnd : (e.members.map Prod.fst).Nodup := by
    simp [EnumDef.wf] at hwf
    exact hwf.1
  have hgood : ∀ p ∈ e.members, goodEnumName p.1 = true := by
    simp only [EnumDef.wf, Bool.and_eq_true, List.all_eq_true] at hwf
    exact fun p hp => hwf.2 p hp
  unfold enumToChars
  cases hlook : enumLookupName e.members v with
  | some n =>
    have hmem : (n, v) ∈ e.members := enumLookupName_mem _ _ _ hlook
    unfold enumParse
    have hmk : String.mk n.data = n := rfl
    rw [hmk, enumLookupValue_of_mem_nodup _ hnd n v hmem]
  | none =>
    unfold enumParse
    cases hlv : enumLookupValue e.members (String.mk (intToChars v)) with
    | some x =>
      exfalso
      have hmem := enumLookupValue_mem _ _ _ hlv
      have hg := hgood _ hmem
      simp only [goodEnumName, Bool.and_eq_true] at hg
      rw [parseInt_intToChars] at hg
      simp at hg
    | none =>
      rw [parseInt_intToChars]

/-! ### Tokenizer correctness -/

theorem tokenizeAux_space (ys : List Char) (cur : List Char)
    (acc : List (List Char)) :
    tokenizeAux (' ' :: ys) 0 cur acc = tokenizeAux ys 0 [] (pushTok cur acc) :=
  rfl

theorem tokenizeAux_comma (ys : List Char) (cur : List Char)
    (acc : List (List Char)) :
    tokenizeAux (',' :: ys) 0 cur acc = tokenizeAux ys 0 [] (pushTok cur acc) :=
  rfl

theorem tokenizeAux_bracket {inner : List Char} (hb : Bal inner) :
    ∀ cs d cur acc, tokenizeAux (inner ++ '>' :: cs) (d + 1) cur acc =
      tokenizeAux cs d (cur ++ inner ++ ['>']) acc := by
  induction hb with
  | nil =>
    intro cs d cur acc
    simp [tokenizeAux]
  | @chr c xs h1 h2 _ ih =>
    intro cs d cur acc
    simp only [List.cons_append, tokenizeAux, if_neg h2, if_neg h1,
      List.append_eq]
    rw [if_neg (by simp), ih]
    congr 1
    simp
  | @br inner2 rest hi hr ih1 ih2 =>
    intro cs d cur acc
    have hshape : ('<' :: inner2 ++ '>' :: rest) ++ '>' :: cs =
        '<' :: (inner2 ++ '>' :: (rest ++ '>' :: cs)) := by
      simp
    rw [hshape]
    have hstep :
        tokenizeAux ('<' :: (inner2 ++ '>' :: (rest ++ '>' :: cs))) (d + 1)
            cur acc =
          tokenizeAux (inner2 ++ '>' :: (rest ++ '>' :: cs)) (d + 1 + 1)
            (cur ++ ['<']) acc := rfl
    rw [hstep, ih1, ih2]
    congr 1
    simp

theorem tokenizeAux_token {tok : List Char} (ht : TokSeg tok) :
    ∀ cs cur acc, tokenizeAux (tok ++ cs) 0 cur acc =
      tokenizeAux cs 0 (cur ++ tok) acc := by
  induction ht with
  | nil =>
    intro cs cur acc
    simp
  | @chr c xs h1 h2 h3 h4 _ ih =>
    intro cs cur acc
    simp only [List.cons_append, tokenizeAux, if_neg h2, if_neg h1,
      List.append_eq]
    rw [if_neg (by simp [h3, h4]), ih]
    congr 1
    simp
  | @br inner rest hi _ ih =>
    intro cs cur acc
    have hshape : ('<' :: inner ++ '>' :: rest) ++ cs =
        '<' :: (inner ++ '>' :: (rest ++ cs)) := by
      simp
    rw [hshape]
    have hstep :
        tokenizeAux ('<' :: (inner ++ '>' :: (rest ++ cs))) 0 cur acc =
          tokenizeAux (inner ++ '>' :: (rest ++ cs)) (0 + 1)
            (cur ++ ['<']) acc := rfl
    rw [hstep, tokenizeAux_bracket hi, ih]
    congr 1
    simp

theorem tokenizeAux_join :
    ∀ (toks : List (List Char)) (acc : List (List Char)),
      (∀ t ∈ toks, TokSeg t ∧ t ≠ []) →
      tokenizeAux (joinComma toks ++ [' ']) 0 [] acc =
        some (acc.reverse ++ toks) := by
  intro toks
  induction toks with
  | nil =>
    intro acc _
    simp [joinComma, tokenizeAux, pushTok]
  | cons t rest ih =>
    intro acc h
    have ht := h t (by simp)
    cases rest with
    | nil =>
      have hj : joinComma [t] = t := rfl
      rw [hj, tokenizeAux_token ht.1, tokenizeAux_space]
      have hpt : pushTok ([] ++ t) acc = t :: acc := by
        simp [pushTok, ht.2]
      rw [hpt]
      simp [tokenizeAux, pushTok]
    | cons t2 rest2 =>
      have hj : joinComma (t :: t2 :: rest2) =
          t ++ ',' :: ' ' :: joinComma (t2 :: rest2) := rfl
      rw [hj, List.append_assoc, tokenizeAux_token ht.1]
      simp only [List.cons_append]
      rw [tokenizeAux_comma]
      have hpt : pushTok ([] ++ t) acc = t :: acc := by
        simp [pushTok, ht.2]
      rw [hpt, tokenizeAux_space]
      have hpt2 : pushTok [] (t :: acc) = t :: acc := by
        simp [pushTok]
      rw [hpt2, ih (t :: acc) (fun x hx => h x (by simp [hx]))]
      simp

/-! ### Size-based induction for nested values -/

theorem value_size_lt {v : Value} {vs : List Value} (h : v ∈ vs) :
    sizeOf v < sizeOf (Value.vStruct vs) := by
  have h1 : sizeOf v < sizeOf vs := List.sizeOf_lt_of_mem h
  have h2 : sizeOf (Value.vStruct vs) = 1 + sizeOf vs := by
    simp
  omega

theorem value_size_rec (P : Value → Prop)
    (ih : ∀ v, (∀ w, sizeOf w < sizeOf v → P w) → P v) : ∀ v, P v := by
  have h : ∀ (n : ℕ) (w : Value), sizeOf w ≤ n → P w := by
    intro n
    induction n with
    | zero =>
      intro w hw
      exact ih w (fun x hx => absurd (Nat.lt_of_lt_of_le hx hw) (by omega))
    | succ k ihk =>
      intro w hw
      exact ih w (fun x hx => ihk x (by omega))
  exact fun v => h (sizeOf v) v le_rfl

/-! ### Non-emptiness of rendered scalars -/

theorem intToChars_ne_nil (i : ℤ) : intToChars i ≠ [] := by
  unfold intToChars
  by_cases hneg : i < 0
  · simp [if_pos hneg]
  · simp only [if_neg hneg]
    exact natToChars_ne_nil _

theorem floatToChars_ne_nil (f : FloatVal) : floatToChars f ≠ [] := by
  unfold floatToChars
  intro h
  have := List.append_eq_nil.mp h
  have h2 := List.append_eq_nil.mp this.1
  exact natToChars_ne_nil _ h2.2

theorem enumToChars_token {e : EnumDef} (hwf : e.wf = true) (v : ℤ) :
    TokSeg (enumToChars e v) ∧ enumToChars e v ≠ [] := by
  have hgood : ∀ p ∈ e.members, goodEnumName p.1 = true := by
    simp only [EnumDef.wf, Bool.and_eq_true, List.all_eq_true] at hwf
    exact fun p hp => hwf.2 p hp
  unfold enumToChars
  cases hlook : enumLookupName e.members v with
  | some n =>
    have hmem := enumLookupName_mem _ _ _ hlook
    have hg := hgood _ hmem
    simp only [goodEnumName, Bool.and_eq_true, List.all_eq_true,
      decide_eq_true_eq] at hg
    constructor
    · apply chars_tokSeg
      intro c hc
      have hcf := hg.1.2 c hc
      exact ⟨hcf.1.1.1, hcf.1.1.2, hcf.1.2, hcf.2⟩
    · exact hg.1.1
  | none =>
    exact ⟨chars_tokSeg (intToChars_not_special v), intToChars_ne_nil v⟩

theorem joinComma_bal :
    ∀ toks : List (List Char), (∀ t ∈ toks, Bal t) →
      Bal (joinComma toks) := by
  intro toks
  induction toks with
  | nil =>
    intro _
    exact Bal.nil
  | cons t rest ih =>
    intro h
    cases rest with
    | nil => exact h t (by simp)
    | cons t2 rest2 =>
      have hj : joinComma (t :: t2 :: rest2) =
          t ++ ',' :: ' ' :: joinComma (t2 :: rest2) := rfl
      rw [hj]
      exact bal_append (h t (by simp))
        (Bal.chr (by decide) (by decide)
          (Bal.chr (by decide) (by decide)
            (ih (fun x hx => h x (by simp [hx])))))

/-! ### Rendering produces tokens -/

theorem toText_token :
    ∀ (v : Value) (ty : FieldTy), tyWF ty = true → structElemOk ty = true →
      wellTyped ty v = true →
      TokSeg (toTextChars ty v) ∧ toTextChars ty v ≠ [] := by
  refine value_size_rec
    (fun v => ∀ ty : FieldTy, tyWF ty = true → structElemOk ty = true →
      wellTyped ty v = true →
      TokSeg (toTextChars ty v) ∧ toTextChars ty v ≠ []) ?_
  intro v ihv ty hty hse hwt
  cases ty with
  | str => simp [structElemOk] at hse
  | scalar k =>
    cases k with
    | boolTy =>
      cases v with
      | vBool b =>
        refine ⟨chars_tokSeg ?_, ?_⟩
        · cases b <;> (intro c hc; fin_cases hc <;> decide)
        · cases b <;> decide
      | vInt i => simp [wellTyped] at hwt
      | vFloat f => simp [wellTyped] at hwt
      | vStr s => simp [wellTyped] at hwt
      | vEnum i => simp [wellTyped] at hwt
      | vStruct vs => simp [wellTyped] at hwt
    | intTy lo hi =>
      cases v with
      | vInt i =>
        have heq : toTextChars (FieldTy.scalar (ScalarTy.intTy lo hi))
            (Value.vInt i) = intToChars i := rfl
        rw [heq]
        exact ⟨chars_tokSeg (intToChars_not_special i), intToChars_ne_nil i⟩
      | vBool b => simp [wellTyped] at hwt
      | vFloat f => simp [wellTyped] at hwt
      | vStr s => simp [wellTyped] at hwt
      | vEnum j => simp [wellTyped] at hwt
      | vStruct vs => simp [wellTyped] at hwt
    | floatTy =>
      cases v with
      | vFloat f =>
        have hv : f.valid = true := by simpa [wellTyped] using hwt
        have heq : toTextChars (FieldTy.scalar ScalarTy.floatTy)
            (Value.vFloat f) = floatToChars f := rfl
        rw [heq]
        exact ⟨chars_tokSeg (floatToChars_not_special hv),
          floatToChars_ne_nil f⟩
      | vBool b => simp [wellTyped] at hwt
      | vInt i => simp [wellTyped] at hwt
      | vStr s => simp [wellTyped] at hwt
      | vEnum j => simp [wellTyped] at hwt
      | vStruct vs => simp [wellTyped] at hwt
    | enumTy e =>
      cases v with
      | vEnum i =>
        have hwf : e.wf = true := by simpa [tyWF] using hty
        have heq : toTextChars (FieldTy.scalar (ScalarTy.enumTy e))
            (Value.vEnum i) = enumToChars e i := rfl
        rw [heq]
        exact enumToChars_token hwf i
      | vBool b => simp [wellTyped] at hwt
      | vInt i => simp [wellTyped] at hwt
      | vFloat f => simp [wellTyped] at hwt
      | vStr s => simp [wellTyped] at hwt
      | vStruct vs => simp [wellTyped] at hwt
  | struct fields =>
    cases v with
    | vStruct vs =>
      have hwtl : wellTypedList fields vs = true := by
        simpa [wellTyped] using hwt
      have htyl : tyWFList fields = true := by
        simpa [tyWF] using hty
      have hTok : ∀ x ∈ toTextList fields vs, TokSeg x ∧ x ≠ [] := by
        have hgen : ∀ (fields2 : List FieldTy) (vs2 : List Value),
            tyWFList fields2 = true → wellTypedList fields2 vs2 = true →
            (∀ w ∈ vs2, sizeOf w < sizeOf (Value.vStruct vs)) →
            ∀ x ∈ toTextList fields2 vs2, TokSeg x ∧ x ≠ [] := by
          intro fields2
          induction fields2 with
          | nil =>
            intro vs2 _ hwt2 _ x hx
            cases vs2 with
            | nil => simp [toTextList] at hx
            | cons w ws => simp [wellTypedList] at hwt2
          | cons t ts ihf =>
            intro vs2 hty2 hwt2 hsz x hx
            cases vs2 with
            | nil => simp [wellTypedList] at hwt2
            | cons w ws =>
              simp only [wellTypedList, Bool.and_eq_true] at hwt2
              simp only [tyWFList, Bool.and_eq_true] at hty2
              simp only [toTextList, List.mem_cons] at hx
              rcases hx with h | h
              · subst h
                exact ihv w (hsz w (by simp)) t hty2.1.1 hty2.1.2 hwt2.1
              · exact ihf ws hty2.2 hwt2.2
                  (fun u hu => hsz u (by simp [hu])) x h
        exact hgen fields vs htyl hwtl (fun w hw => value_size_lt hw)
      have hJ : Bal (joinComma (toTextList fields vs)) :=
        joinComma_bal _ (fun x hx => tokSeg_bal (hTok x hx).1)
      have hshape : toTextChars (FieldTy.struct fields) (Value.vStruct vs) =
          '<' :: ((' ' :: (joinComma (toTextList fields vs) ++ [' '])) ++
            '>' :: []) := by
        simp [toTextChars]
      rw [hshape]
      constructor
      · exact TokSeg.br
          (Bal.chr (by decide) (by decide)
            (bal_append hJ (Bal.chr (by decide) (by decide) Bal.nil)))
          TokSeg.nil
      · simp
    | vBool b => simp [wellTyped] at hwt
    | vInt i => simp [wellTyped] at hwt
    | vFloat f => simp [wellTyped] at hwt
    | vStr s => simp [wellTyped] at hwt
    | vEnum i => simp [wellTyped] at hwt

theorem toTextList_tokens :
    ∀ (fields : List FieldTy) (vs : List Value), tyWFList fields = true →
      wellTypedList fields vs = true →
      ∀ x ∈ toTextList fields vs, TokSeg x ∧ x ≠ [] := by
  intro fields
  induction fields with
  | nil =>
    intro vs _ hwt2 x hx
    cases vs with
    | nil => simp [toTextList] at hx
    | cons w ws => simp [wellTypedList] at hwt2
  | cons t ts ihf =>
    intro vs hty2 hwt2 x hx
    cases vs with
    | nil => simp [wellTypedList] at hwt2
    | cons w ws =>
      simp only [wellTypedList, Bool.and_eq_true] at hwt2
      simp only [tyWFList, Bool.and_eq_true] at hty2
      simp only [toTextList, List.mem_cons] at hx
      rcases hx with h | h
      · subst h
        exact toText_token w t hty2.1.1 hty2.1.2 hwt2.1
      · exact ihf ws hty2.2 hwt2.2 x h

theorem toTextList_length :
    ∀ (fields : List FieldTy) (vs : List Value),
      wellTypedList fields vs = true →
      (toTextList fields vs).length = fields.length := by
  intro fields
  induction fields with
  | nil =>
    intro vs h
    cases vs with
    | nil => rfl
    | cons w ws => simp [wellTypedList] at h
  | cons t ts ih =>
    intro vs h
    cases vs with
    | nil => simp [wellTypedList] at h
    | cons w ws =>
      simp only [wellTypedList, Bool.and_eq_true] at h
      simp only [toTextList, List.length_cons, ih ws h.2]

/-- C3: for every scalar, enum, string, and struct field type and every
representable value `v` of that type (including min/max integers, `0.0`,
negative zero, and the empty string), parsing the canonical text rendering
of `v` yields `v` back: `ParseText(ToText(v)) == v`. -/
theorem parseText_toText_roundtrip :
    ∀ (v : Value) (ty : FieldTy), tyWF ty = true → wellTyped ty v = true →
      parseChars ty (toTextChars ty v) = .ok v := by
  refine value_size_rec
    (fun v => ∀ ty : FieldTy, tyWF ty = true → wellTyped ty v = true →
      parseChars ty (toTextChars ty v) = .ok v) ?_
  intro v ihv ty hty hwt
  cases ty with
  | str =>
    cases v with
    | vStr s => rfl
    | vBool b => simp [wellTyped] at hwt
    | vInt i => simp [wellTyped] at hwt
    | vFloat f => simp [wellTyped] at hwt
    | vEnum i => simp [wellTyped] at hwt
    | vStruct vs => simp [wellTyped] at hwt
  | scalar k =>
    cases k with
    | boolTy =>
      cases v with
      | vBool b => cases b <;> rfl
      | vInt i => simp [wellTyped] at hwt
      | vFloat f => simp [wellTyped] at hwt
      | vStr s => simp [wellTyped] at hwt
      | vEnum i => simp [wellTyped] at hwt
      | vStruct vs => simp [wellTyped] at hwt
    | intTy lo hi =>
      cases v with
      | vInt i =>
        have heq : toTextChars (FieldTy.scalar (ScalarTy.intTy lo hi))
            (Value.vInt i) = intToChars i := rfl
        have hp : parseChars (FieldTy.scalar (ScalarTy.intTy lo hi))
            (intToChars i) =
              match parseIntChars (intToChars i) with
              | some j => .ok (.vInt j)
              | none => .error .kParseError := rfl
        rw [heq, hp, parseInt_intToChars]
      | vBool b => simp [wellTyped] at hwt
      | vFloat f => simp [wellTyped] at hwt
      | vStr s => simp [wellTyped] at hwt
      | vEnum j => simp [wellTyped] at hwt
      | vStruct vs => simp [wellTyped] at hwt
    | floatTy =>
      cases v with
      | vFloat f =>
        have hv : f.valid = true := by simpa [wellTyped] using hwt
        have heq : toTextChars (FieldTy.scalar ScalarTy.floatTy)
            (Value.vFloat f) = floatToChars f := rfl
        have hp : parseChars (FieldTy.scalar ScalarTy.floatTy)
            (floatToChars f) =
              match parseFloatChars (floatToChars f) with
              | some g => .ok (.vFloat g)
              | none => .error .kParseError := rfl
        rw [heq, hp, parseFloat_floatToChars hv]
      | vBool b => simp [wellTyped] at hwt
      | vInt i => simp [wellTyped] at hwt
      | vStr s => simp [wellTyped] at hwt
      | vEnum j => simp [wellTyped] at hwt
      | vStruct vs => simp [wellTyped] at hwt
    | enumTy e =>
      cases v with
      | vEnum i =>
        have hwf : e.wf = true := by simpa [tyWF] using hty
        have heq : toTextChars (FieldTy.scalar (ScalarTy.enumTy e))
            (Value.vEnum i) = enumToChars e i := rfl
        have hp : parseChars (FieldTy.scalar (ScalarTy.enumTy e))
            (enumToChars e i) =
              match enumParse e (enumToChars e i) with
              | .ok j => .ok (.vEnum j)
              | .error err => .error err := rfl
        rw [heq, hp, enumParse_enumToChars hwf]
      | vBool b => simp [wellTyped] at hwt
      | vInt i => simp [wellTyped] at hwt
      | vFloat f => simp [wellTyped] at hwt
      | vStr s => simp [wellTyped] at hwt
      | vStruct vs => simp [wellTyped] at hwt
  | struct fields =>
    cases v with
    | vStruct vs =>
      have hwtl : wellTypedList fields vs = true := by
        simpa [wellTyped] using hwt
      have htyl : tyWFList fields = true := by
        simpa [tyWF] using hty
      have hTok := toTextList_tokens fields vs htyl hwtl
      have hJ : Bal (joinComma (toTextList fields vs)) :=
        joinComma_bal _ (fun x hx => tokSeg_bal (hTok x hx).1)
      have hbody : Bal (' ' :: (joinComma (toTextList fields vs) ++ [' '])) :=
        Bal.chr (by decide) (by decide)
          (bal_append hJ (Bal.chr (by decide) (by decide) Bal.nil))
      have hshape : toTextChars (FieldTy.struct fields) (Value.vStruct vs) =
          '<' :: ((' ' :: (joinComma (toTextList fields vs) ++ [' '])) ++
            '>' :: []) := by
        simp [toTextChars]
      have htokenize :
          tokenize (' ' :: (joinComma (toTextList fields vs) ++ [' '])) =
            some (toTextList fields vs) := by
        unfold tokenize
        rw [tokenizeAux_space]
        have hp0 : pushTok [] ([] : List (List Char)) = [] := rfl
        rw [hp0, tokenizeAux_join _ _ hTok]
        simp
      have hlen : (toTextList fields vs).length = fields.length :=
        toTextList_length fields vs hwtl
      have hplist : parseList fields (toTextList fields vs) = .ok vs := by
        have hgen : ∀ (fields2 : List FieldTy) (vs2 : List Value),
            tyWFList fields2 = true → wellTypedList fields2 vs2 = true →
            (∀ w ∈ vs2, sizeOf w < sizeOf (Value.vStruct vs)) →
            parseList fields2 (toTextList fields2 vs2) = .ok vs2 := by
          intro fields2
          induction fields2 with
          | nil =>
            intro vs2 _ hwt2 _
            cases vs2 with
            | nil => rfl
            | cons w ws => simp [wellTypedList] at hwt2
          | cons t ts ihf =>
            intro vs2 hty2 hwt2 hsz
            cases vs2 with
            | nil => simp [wellTypedList] at hwt2
            | cons w ws =>
              simp only [wellTypedList, Bool.and_eq_true] at hwt2
              simp only [tyWFList, Bool.and_eq_true] at hty2
              have hw := ihv w (hsz w (by simp)) t hty2.1.1 hwt2.1
              have heqn : toTextList (t :: ts) (w :: ws) =
                  toTextChars t w :: toTextList ts ws := rfl
              have hpl : parseList (t :: ts)
                  (toTextChars t w :: toTextList ts ws) =
                    match parseChars t (toTextChars t w) with
                    | .error err => .error err
                    | .ok v2 =>
                      match parseList ts (toTextList ts ws) with
                      | .error err => .error err
                      | .ok vs3 => .ok (v2 :: vs3) := rfl
              rw [heqn, hpl, hw,
                ihf ws hty2.2 hwt2.2 (fun u hu => hsz u (by simp [hu]))]
        exact hgen fields vs htyl hwtl (fun w hw => value_size_lt hw)
      rw [hshape]
      simp only [parseChars]
      rw [List.dropWhile_cons]
      simp only [show (decide (('<' : Char) ≠ '<')) = false from rfl,
        Bool.false_eq_true, if_false]
      rw [if_neg (by simp), List.tail_cons, scanDepth_match hbody]
      simp only [List.nil_append, htokenize, hlen, hplist]
      simp
    | vBool b => simp [wellTyped] at hwt
    | vInt i => simp [wellTyped] at hwt
    | vFloat f => simp [wellTyped] at hwt
    | vStr s => simp [wellTyped] at hwt
    | vEnum i => simp [wellTyped] at hwt

/-- Witness for C3 at concrete boundary inputs: a struct holding the
minimum and maximum 64-bit integers, `0.0`, negative zero, an unnamed enum
value and a bool round-trips, as does the empty string at a string field. -/
theorem parseText_toText_roundtrip_witness :
    parseChars sampleStructTy (toTextChars sampleStructTy sampleStructVal) =
      .ok sampleStructVal ∧
    parseChars .str (toTextChars .str (.vStr "")) = .ok (.vStr "") :=
  ⟨parseText_toText_roundtrip sampleStructVal sampleStructTy (by decide)
      (by decide),
    parseText_toText_roundtrip (.vStr "") .str (by decide) (by decide)⟩

/-- C8: for an enum field, parsing the text `"5"` succeeds even when no
enum member has value 5 (raw integers are accepted as fallback); rendering
a stored enum value with no matching symbolic name emits the raw integer
text `"5"`, not a symbolic name; and text matching neither an exact
case-sensitive member name nor an integer is an error
(`kInvalidEnumValue`). -/
theorem enum_fallback :
    (∀ (e : EnumDef) (v : ℤ), enumLookupName e.members v = none →
      toTextChars (.scalar (.enumTy e)) (.vEnum v) = intToChars v) ∧
    (∀ (e : EnumDef) (cs : List Char) (i : ℤ),
      enumLookupValue e.members (String.mk cs) = none →
      parseIntChars cs = some i →
      parseChars (.scalar (.enumTy e)) cs = .ok (.vEnum i)) ∧
    (∀ (e : EnumDef) (cs : List Char),
      enumLookupValue e.members (String.mk cs) = none →
      parseIntChars cs = none →
      parseChars (.scalar (.enumTy e)) cs = .error .kInvalidEnumValue) ∧
    parseChars (.scalar (.enumTy enumSample)) ("5".data) = .ok (.vEnum 5) ∧
    toTextChars (.scalar (.enumTy enumSample)) (.vEnum 5) = "5".data ∧
    parseChars (.scalar (.enumTy enumSample)) ("red".data) =
      .error .kInvalidEnumValue := by
  refine ⟨?_, ?_, ?_, rfl, rfl, rfl⟩
  · intro e v h
    have heq : toTextChars (FieldTy.scalar (ScalarTy.enumTy e))
        (Value.vEnum v) = enumToChars e v := rfl
    rw [heq]
    unfold enumToChars
    rw [h]
  · intro e cs i h1 h2
    have hp : parseChars (FieldTy.scalar (ScalarTy.enumTy e)) cs =
        match enumParse e cs with
        | .ok j => .ok (.vEnum j)
        | .error err => .error err := rfl
    rw [hp]
    unfold enumParse
    rw [h1, h2]
  · intro e cs h1 h2
    have hp : parseChars (FieldTy.scalar (ScalarTy.enumTy e)) cs =
        match enumParse e cs with
        | .ok j => .ok (.vEnum j)
        | .error err => .error err := rfl
    rw [hp]
    unfold enumParse
    rw [h1, h2]

/-- Witness for C8: the fallback-rendering clause applied to `enumSample`
at the unnamed value 5. -/
theorem enum_fallback_witness :
    toTextChars (.scalar (.enumTy enumSample)) (.vEnum 5) = intToChars 5 :=
  enum_fallback.1 enumSample 5 rfl

/-! ### Editor state: buffer replacement and the modified flag -/

/-- C4: for every input to `SetFlatbufferData` (null or non-null), the call
clears all edit-session entries and the modified flag (and the
committed-fields list); when the input is null the internal buffer becomes
empty, so `HasFlatbufferData()` returns false; and `HasFlatbufferData()`
returns true exactly when the buffer is non-empty. -/
theorem setFlatbufferData_clears :
    (∀ (rootTy : FieldTy) (names : List String) (d : Option (List ℕ))
        (s : EditorState),
      (setFlatbufferData rootTy names d s).editFields = [] ∧
      (setFlatbufferData rootTy names d s).editFieldsModified = false ∧
      (setFlatbufferData rootTy names d s).flatbufferModified = false ∧
      (setFlatbufferData rootTy names d s).committedFields = []) ∧
    (∀ (rootTy : FieldTy) (names : List String) (s : EditorState),
      (setFlatbufferData rootTy names none s).flatbuffer = [] ∧
      hasFlatbufferData (setFlatbufferData rootTy names none s) = false) ∧
    (∀ s : EditorState, hasFlatbufferData s = true ↔ s.flatbuffer ≠ []) := by
  refine ⟨?_, ?_, ?_⟩
  · intro rootTy names d s
    cases d <;>
      simp [setFlatbufferData, clearEditFields, clearFlatbufferModifiedFlag]
  · intro rootTy names s
    simp [setFlatbufferData, clearEditFields, clearFlatbufferModifiedFlag,
      hasFlatbufferData]
  · intro s
    simp [hasFlatbufferData, List.length_pos]

/-- C9: the modified flag becomes true when a committed write occurs, stays
true under every operation other than `ClearFlatbufferModifiedFlag` and
buffer replacement, and clearing it also empties the committed-fields
set. -/
theorem modified_flag_monotonic :
    (∀ (rootTy : FieldTy) (names : List String) (op : EdOp)
        (s : EditorState),
      s.flatbufferModified = true →
      op ≠ EdOp.clearModified → (∀ d, op ≠ EdOp.setData d) →
      (applyOp rootTy names op s).flatbufferModified = true) ∧
    (∀ (rootTy : FieldTy) (names : List String) (s : EditorState),
      (applyOp rootTy names EdOp.clearModified s).flatbufferModified =
        false ∧
      (applyOp rootTy names EdOp.clearModified s).committedFields = []) ∧
    (∀ (rootTy : FieldTy) (names : List String) (s : EditorState),
      (commitDriver (s.editFields.length + 1) s.record s.editFields).wrote =
        true →
      (applyOp rootTy names EdOp.commit s).flatbufferModified = true) := by
  refine ⟨?_, ?_, ?_⟩
  · intro rootTy names op s hm hc hd
    cases op with
    | setData d => exact absurd rfl (hd d)
    | clearModified => exact absurd rfl hc
    | draw edits => simpa [applyOp] using hm
    | check => simpa [applyOp] using hm
    | commit => simp [applyOp, hm]
  · intro rootTy names s
    simp [applyOp, clearFlatbufferModifiedFlag]
  · intro rootTy names s hw
    simp [applyOp, hw]

/-- Witness for C9: a check-only pass on a modified editor leaves the flag
set. -/
theorem modified_flag_monotonic_witness :
    (applyOp .str [] EdOp.check
        ⟨[], false, [], [], [], [], true⟩).flatbufferModified = true :=
  modified_flag_monotonic.1 .str [] EdOp.check
    ⟨[], false, [], [], [], [], true⟩ rfl (by simp) (fun d => by simp)

/-! ### Commit pass: abort-on-resize and restart-from-root (C1) -/

theorem commitPassAux_visited_none :
    ∀ (fields : List FieldNode) (sess : List (String × String)) (idx : ℕ),
      (commitPassAux fields sess idx).resizedAt = none →
      (commitPassAux fields sess idx).visited =
        List.range' idx fields.length := by
  intro fields
  induction fields with
  | nil =>
    intro sess idx _
    simp [commitPassAux]
  | cons f fs ih =>
    intro sess idx hnone
    rcases hstep : commitStep f sess with ⟨f2, sess2, cid, res⟩
    have he : commitPassAux (f :: fs) sess idx =
        if res then
          ⟨f2 :: fs, sess2, cid.toList, cid.isSome, some idx, [idx]⟩
        else
          let out := commitPassAux fs sess2 (idx + 1)
          ⟨f2 :: out.record, out.session, cid.toList ++ out.committed,
            cid.isSome || out.wrote, out.resizedAt, idx :: out.visited⟩ := by
      simp only [commitPassAux, hstep]
    cases res with
    | true =>
      rw [he] at hnone
      simp at hnone
    | false =>
      rw [he] at hnone ⊢
      simp only [if_false, Bool.false_eq_true] at hnone ⊢
      rw [List.length_cons, List.range'_succ]
      exact congrArg (idx :: ·) (ih sess2 (idx + 1) hnone)

theorem commitPassAux_visited_some :
    ∀ (fields : List FieldNode) (sess : List (String × String)) (idx i : ℕ),
      (commitPassAux fields sess idx).resizedAt = some i →
      idx ≤ i ∧
      (commitPassAux fields sess idx).visited =
        List.range' idx (i + 1 - idx) := by
  intro fields
  induction fields with
  | nil =>
    intro sess idx i h
    simp [commitPassAux] at h
  | cons f fs ih =>
    intro sess idx i hres
    rcases hstep : commitStep f sess with ⟨f2, sess2, cid, res⟩
    have he : commitPassAux (f :: fs) sess idx =
        if res then
          ⟨f2 :: fs, sess2, cid.toList, cid.isSome, some idx, [idx]⟩
        else
          let out := commitPassAux fs sess2 (idx + 1)
          ⟨f2 :: out.record, out.session, cid.toList ++ out.committed,
            cid.isSome || out.wrote, out.resizedAt, idx :: out.visited⟩ := by
      simp only [commitPassAux, hstep]
    cases res with
    | true =>
      rw [he] at hres ⊢
      simp only [if_true] at hres ⊢
      injection hres with h1
      subst h1
      refine ⟨le_rfl, ?_⟩
      simp [List.range'_succ]
    | false =>
      rw [he] at hres ⊢
      simp only [if_false, Bool.false_eq_true] at hres ⊢
      obtain ⟨hle, hvis⟩ := ih sess2 (idx + 1) i hres
      refine ⟨by omega, ?_⟩
      have harith : i + 1 - idx = (i - idx) + 1 := by omega
      have harith2 : i + 1 - (idx + 1) = i - idx := by omega
      rw [harith, List.range'_succ, hvis, harith2]

/-- C1: during a Commit-mode traversal pass, if applying an edit forces the
flatbuffer to be resized, the walk aborts at that field — the visit trace
is exactly the prefix of indices up to and including the resize point, so
no field downstream of the rebuilt region is visited and no stale offset
is dereferenced — and the driver restarts the commit pass from the root:
every pass trace is an initial segment `List.range k` starting at index
0. -/
theorem commit_resize_abort_restart :
    (∀ (fields : List FieldNode) (sess : List (String × String)) (i : ℕ),
      (commitPass fields sess).resizedAt = some i →
      (commitPass fields sess).visited = List.range (i + 1)) ∧
    (∀ (fields : List FieldNode) (sess : List (String × String)),
      (commitPass fields sess).resizedAt = none →
      (commitPass fields sess).visited = List.range fields.length) ∧
    (∀ (fuel : ℕ) (fields : List FieldNode) (sess : List (String × String)),
      ∀ seg ∈ (commitDriver fuel fields sess).passes,
        ∃ k, seg = List.range k) := by
  have hpass : ∀ (fields : List FieldNode) (sess : List (String × String)),
      ∃ k, (commitPass fields sess).visited = List.range k := by
    intro fields sess
    cases hres : (commitPass fields sess).resizedAt with
    | none =>
      refine ⟨fields.length, ?_⟩
      rw [List.range_eq_range']
      exact commitPassAux_visited_none fields sess 0 hres
    | some i =>
      refine ⟨i + 1, ?_⟩
      rw [List.range_eq_range']
      have := (commitPassAux_visited_some fields sess 0 i hres).2
      simpa using this
  refine ⟨?_, ?_, ?_⟩
  · intro fields sess i h
    rw [List.range_eq_range']
    have := (commitPassAux_visited_some fields sess 0 i h).2
    simpa using this
  · intro fields sess h
    rw [List.range_eq_range']
    exact commitPassAux_visited_none fields sess 0 h
  · intro fuel
    induction fuel with
    | zero =>
      intro fields sess seg hseg
      simp [commitDriver] at hseg
    | succ k ih =>
      intro fields sess seg hseg
      simp only [commitDriver] at hseg
      rcases hres : (commitPass fields sess).resizedAt with _ | i <;>
        rw [hres] at hseg
      · simp at hseg
        subst hseg
        exact hpass fields sess
      · simp at hseg
        rcases hseg with h | h
        · subst h
          exact hpass fields sess
        · exact ih _ _ seg h

/-- Witness for C1: committing a longer string into a variable-length
field forces a resize at index 0; the pass visits exactly index 0 and
aborts. -/
theorem commit_resize_abort_restart_witness :
    (commitPass [⟨"s", .str, .vStr "ab"⟩, ⟨"t", .str, .vStr "cd"⟩]
        [("s", "xyzw")]).visited = List.range (0 + 1) :=
  commit_resize_abort_restart.1
    [⟨"s", .str, .vStr "ab"⟩, ⟨"t", .str, .vStr "cd"⟩] [("s", "xyzw")] 0 rfl

/-! ### Session bookkeeping lemmas -/

theorem lookupEdit_removeEdit_self :
    ∀ (es : List (String × String)) (i : String),
      lookupEdit (removeEdit es i) i = none := by
  intro es i
  induction es with
  | nil => rfl
  | cons p ps ih =>
    by_cases hp : p.1 = i
    · simp only [removeEdit, if_pos hp]
      exact ih
    · simp only [removeEdit, if_neg hp, lookupEdit, if_neg hp]
      exact ih

theorem lookupEdit_removeEdit_ne :
    ∀ (es : List (String × String)) (i j : String), i ≠ j →
      lookupEdit (removeEdit es i) j = lookupEdit es j := by
  intro es i j hne
  induction es with
  | nil => rfl
  | cons p ps ih =>
    by_cases hp : p.1 = i
    · have hpj : ¬p.1 = j := by
        rw [hp]
        exact hne
      simp only [removeEdit, if_pos hp, lookupEdit, if_neg hpj]
      exact ih
    · by_cases hpj : p.1 = j
      · simp only [removeEdit, if_neg hp, lookupEdit, if_pos hpj]
      · simp only [removeEdit, if_neg hp, lookupEdit, if_neg hpj]
        exact ih

theorem lookupEdit_none_removeEdit
    {es : List (String × String)} {i : String} (x : String)
    (h : lookupEdit es i = none) :
    lookupEdit (removeEdit es x) i = none := by
  by_cases hx : x = i
  · subst hx
    exact lookupEdit_removeEdit_self es x
  · rw [lookupEdit_removeEdit_ne es x i hx]
    exact h

theorem removeEdit_comm :
    ∀ (es : List (String × String)) (a b : String),
      removeEdit (removeEdit es a) b = removeEdit (removeEdit es b) a := by
  intro es a b
  induction es with
  | nil => rfl
  | cons p ps ih =>
    by_cases hpa : p.1 = a
    · by_cases hpb : p.1 = b
      · simp only [removeEdit, if_pos hpa, if_pos hpb, ih]
      · simp only [removeEdit, if_pos hpa, if_neg hpb, if_pos hpa, ih]
    · by_cases hpb : p.1 = b
      · simp only [removeEdit, if_neg hpa, if_pos hpb, ih]
      · simp only [removeEdit, if_neg hpa, if_neg hpb, ih]

/-- Case analysis on one commit visit: either a no-op (no entry, unchanged
text, or parse failure) or a successful write that removes the entry. -/
theorem commitStep_cases (f : FieldNode) (sess : List (String × String)) :
    commitStep f sess = (f, sess, none, false) ∨
    ∃ v, commitStep f sess =
      (⟨f.id, f.ty, v⟩, removeEdit sess f.id, some f.id,
        isVarLen f.ty &&
          decide ((encodeV v).length ≠ (encodeV f.val).length)) := by
  unfold commitStep
  split
  · exact Or.inl rfl
  · split
    · exact Or.inl rfl
    · split
      · exact Or.inl rfl
      · exact Or.inr ⟨_, rfl⟩

theorem commitPassAux_none_preserved :
    ∀ (fields : List FieldNode) (sess : List (String × String)) (idx : ℕ)
      (i : String), lookupEdit sess i = none →
      lookupEdit (commitPassAux fields sess idx).session i = none := by
  intro fields
  induction fields with
  | nil =>
    intro sess idx i h
    simpa [commitPassAux] using h
  | cons f fs ih =>
    intro sess idx i h
    rcases hstep : commitStep f sess with ⟨f2, sess2, cid, res⟩
    have hsess2 : lookupEdit sess2 i = none := by
      rcases commitStep_cases f sess with hc | ⟨v, hc⟩ <;>
        rw [hc] at hstep <;> injection hstep with _ h2 <;>
          injection h2 with h2 _
      · rw [← h2]
        exact h
      · rw [← h2]
        exact lookupEdit_none_removeEdit _ h
    have he : commitPassAux (f :: fs) sess idx =
        if res then
          ⟨f2 :: fs, sess2, cid.toList, cid.isSome, some idx, [idx]⟩
        else
          let out := commitPassAux fs sess2 (idx + 1)
          ⟨f2 :: out.record, out.session, cid.toList ++ out.committed,
            cid.isSome || out.wrote, out.resizedAt, idx :: out.visited⟩ := by
      simp only [commitPassAux, hstep]
    rw [he]
    cases res with
    | true => simpa using hsess2
    | false =>
      simp only [if_false, Bool.false_eq_true]
      exact ih sess2 (idx + 1) i hsess2

theorem commitPassAux_committed_clear :
    ∀ (fields : List FieldNode) (sess : List (String × String)) (idx : ℕ)
      (i : String), i ∈ (commitPassAux fields sess idx).committed →
      lookupEdit (commitPassAux fields sess idx).session i = none := by
  intro fields
  induction fields with
  | nil =>
    intro sess idx i h
    simp [commitPassAux] at h
  | cons f fs ih =>
    intro sess idx i h
    rcases hstep : commitStep f sess with ⟨f2, sess2, cid, res⟩
    have he : commitPassAux (f :: fs) sess idx =
        if res then
          ⟨f2 :: fs, sess2, cid.toList, cid.isSome, some idx, [idx]⟩
        else
          let out := commitPassAux fs sess2 (idx + 1)
          ⟨f2 :: out.record, out.session, cid.toList ++ out.committed,
            cid.isSome || out.wrote, out.resizedAt, idx :: out.visited⟩ := by
      simp only [commitPassAux, hstep]
    have hcid : ∀ j, cid = some j →
        j = f.id ∧ sess2 = removeEdit sess f.id := by
      intro j hj
      rcases commitStep_cases f sess with hc | ⟨v, hc⟩ <;>
        rw [hc] at hstep <;> injection hstep with _ h2 <;>
          injection h2 with h2 h3 <;> injection h3 with h3 _
      · rw [← h3] at hj
        exact absurd hj (by simp)
      · rw [← h3] at hj
        injection hj with hj
        exact ⟨hj.symm, h2.symm⟩
    rw [he] at h ⊢
    cases res with
    | true =>
      simp only [if_true] at h ⊢
      cases hc : cid with
      | none =>
        rw [hc] at h
        simp [Option.toList] at h
      | some j =>
        obtain ⟨hj, hs2⟩ := hcid j hc
        rw [hc] at h
        simp [Option.toList] at h
        subst h
        subst hj
        rw [hs2]
        exact lookupEdit_removeEdit_self _ _
    | false =>
      simp only [if_false, Bool.false_eq_true] at h ⊢
      simp only [List.mem_append] at h
      rcases h with h | h
      · cases hc : cid with
        | none =>
          rw [hc] at h
          simp [Option.toList] at h
        | some j =>
          obtain ⟨hj, hs2⟩ := hcid j hc
          rw [hc] at h
          simp [Option.toList] at h
          subst h
          subst hj
          apply commitPassAux_none_preserved
          rw [hs2]
          exact lookupEdit_removeEdit_self _ _
      · exact ih sess2 (idx + 1) i h

theorem commitDriver_none_preserved :
    ∀ (fuel : ℕ) (fields : List FieldNode) (sess : List (String × String))
      (i : String), lookupEdit sess i = none →
      lookupEdit (commitDriver fuel fields sess).session i = none := by
  intro fuel
  induction fuel with
  | zero =>
    intro fields sess i h
    simpa [commitDriver] using h
  | succ k ih =>
    intro fields sess i h
    simp only [commitDriver]
    rcases hres : (commitPass fields sess).resizedAt with _ | j
    · exact commitPassAux_none_preserved fields sess 0 i h
    · exact ih _ _ i (commitPassAux_none_preserved fields sess 0 i h)

theorem commitDriver_committed_clear :
    ∀ (fuel : ℕ) (fields : List FieldNode) (sess : List (String × String))
      (i : String), i ∈ (commitDriver fuel fields sess).committed →
      lookupEdit (commitDriver fuel fields sess).session i = none := by
  intro fuel
  induction fuel with
  | zero =>
    intro fields sess i h
    simp [commitDriver] at h
  | succ k ih =>
    intro fields sess i h
    simp only [commitDriver] at h ⊢
    rcases hres : (commitPass fields sess).resizedAt with _ | j <;>
      rw [hres] at h
    · exact commitPassAux_committed_clear fields sess 0 i h
    · rcases List.mem_append.mp h with h2 | h2
      · exact commitDriver_none_preserved k _ _ i
          (commitPassAux_committed_clear fields sess 0 i h2)
      · exact ih _ _ i h2

theorem checkPass_not_mem :
    ∀ (fields : List FieldNode) (sess : List (String × String))
      (i : String), lookupEdit sess i = none → i ∉ checkPass fields sess := by
  intro fields
  induction fields with
  | nil =>
    intro sess i _ h
    simp [checkPass] at h
  | cons f fs ih =>
    intro sess i hnone hmem
    unfold checkPass at hmem
    split at hmem
    · rename_i txt hl
      split at hmem
      · rcases List.mem_cons.mp hmem with h | h
        · subst h
          rw [hl] at hnone
          cases hnone
        · exact ih sess i hnone h
      · exact ih sess i hnone hmem
    · exact ih sess i hnone hmem

/-- C6: after a Commit pass (the full `CommitEditsToFlatbuffer` run)
successfully commits the pending edit for a field A, the edit-session
entry for A is removed, so a subsequent CheckOnly (`kCheckEdits`) pass
reports no pending change for A. -/
theorem commit_clears_committed_entry :
    ∀ (fuel : ℕ) (fields : List FieldNode) (sess : List (String × String))
      (a : String), a ∈ (commitDriver fuel fields sess).committed →
      lookupEdit (commitDriver fuel fields sess).session a = none ∧
      a ∉ checkPass (commitDriver fuel fields sess).record
        (commitDriver fuel fields sess).session := by
  intro fuel fields sess a h
  have h1 := commitDriver_committed_clear fuel fields sess a h
  exact ⟨h1, checkPass_not_mem _ _ a h1⟩

/-- Witness for C6: a bool field edit "true" commits; afterwards its entry
is gone and check-only reports nothing pending for it. -/
theorem commit_clears_committed_entry_witness :
    "x" ∈ (commitDriver 2 [⟨"x", .scalar .boolTy, .vBool false⟩]
        [("x", "true")]).committed ∧
    lookupEdit (commitDriver 2 [⟨"x", .scalar .boolTy, .vBool false⟩]
        [("x", "true")]).session "x" = none ∧
    "x" ∉ checkPass
        (commitDriver 2 [⟨"x", .scalar .boolTy, .vBool false⟩]
          [("x", "true")]).record
        (commitDriver 2 [⟨"x", .scalar .boolTy, .vBool false⟩]
          [("x", "true")]).session := by
  refine ⟨by decide, ?_⟩
  have := commit_clears_committed_entry 2
    [⟨"x", .scalar .boolTy, .vBool false⟩] [("x", "true")] "x" (by decide)
  exact this

/-- `commitStep` is a no-op when the field has no pending entry. -/
theorem commitStep_eq_noop_none (f : FieldNode) (sess : List (String × String))
    (h : lookupEdit sess f.id = none) :
    commitStep f sess = (f, sess, none, false) := by
  unfold commitStep
  rw [h]

/-- `commitStep` is a no-op when the pending text is already canonical. -/
theorem commitStep_eq_noop_eqtext (f : FieldNode)
    (sess : List (String × String)) (txt : String)
    (h : lookupEdit sess f.id = some txt)
    (he : txt.data = toTextChars f.ty f.val) :
    commitStep f sess = (f, sess, none, false) := by
  unfold commitStep
  rw [h]
  dsimp only
  rw [if_pos he]

/-- `commitStep` is a no-op when the pending text fails to parse: the
field keeps its value, the session keeps the entry, nothing is committed
and no resize is flagged. -/
theorem commitStep_eq_noop_fail (f : FieldNode)
    (sess : List (String × String)) (txt : String) (err : ParseErr)
    (h : lookupEdit sess f.id = some txt)
    (he : txt.data ≠ toTextChars f.ty f.val)
    (hp : parseChars f.ty txt.data = .error err) :
    commitStep f sess = (f, sess, none, false) := by
  unfold commitStep
  rw [h]
  dsimp only
  rw [if_neg he, hp]

/-- `commitStep` on a pending entry that parses: writes the value,
removes the entry, reports the id and computes the resize flag. -/
theorem commitStep_eq_ok (f : FieldNode) (sess : List (String × String))
    (txt : String) (v : Value)
    (h : lookupEdit sess f.id = some txt)
    (he : txt.data ≠ toTextChars f.ty f.val)
    (hp : parseChars f.ty txt.data = .ok v) :
    commitStep f sess =
      (⟨f.id, f.ty, v⟩, removeEdit sess f.id, some f.id,
        isVarLen f.ty &&
          decide ((encodeV v).length ≠ (encodeV f.val).length)) := by
  unfold commitStep
  rw [h]
  dsimp only
  rw [if_neg he, hp]

/-- Unfolding `commitPassAux` over a no-op step. -/
theorem commitPassAux_cons_noop (f : FieldNode) (fs : List FieldNode)
    (sess : List (String × String)) (idx : ℕ)
    (h : commitStep f sess = (f, sess, none, false)) :
    commitPassAux (f :: fs) sess idx =
      ⟨f :: (commitPassAux fs sess (idx + 1)).record,
        (commitPassAux fs sess (idx + 1)).session,
        (commitPassAux fs sess (idx + 1)).committed,
        (commitPassAux fs sess (idx + 1)).wrote,
        (commitPassAux fs sess (idx + 1)).resizedAt,
        idx :: (commitPassAux fs sess (idx + 1)).visited⟩ := by
  simp only [commitPassAux, h]
  simp [Option.toList]

/-- Unfolding `commitPassAux` over a writing step. -/
theorem commitPassAux_cons_write (f f2 : FieldNode) (fs : List FieldNode)
    (sess sess2 : List (String × String)) (idx : ℕ) (r : Bool)
    (h : commitStep f sess = (f2, sess2, some f.id, r)) :
    commitPassAux (f :: fs) sess idx =
      if r then ⟨f2 :: fs, sess2, [f.id], true, some idx, [idx]⟩
      else
        ⟨f2 :: (commitPassAux fs sess2 (idx + 1)).record,
          (commitPassAux fs sess2 (idx + 1)).session,
          f.id :: (commitPassAux fs sess2 (idx + 1)).committed,
          true,
          (commitPassAux fs sess2 (idx + 1)).resizedAt,
          idx :: (commitPassAux fs sess2 (idx + 1)).visited⟩ := by
  simp only [commitPassAux, h]
  cases r
  · simp [Option.toList]
  · simp [Option.toList]

/-- A pending entry whose text fails to parse everywhere it is consulted
survives the whole pass untouched: the entry stays in the session, its id
is never committed, its field keeps its value, and the pass's record,
committed list and resize outcome are exactly those of the same pass run
without that entry. -/
theorem commitPassAux_failed_entry :
    ∀ (fields : List FieldNode) (sess : List (String × String)) (idx : ℕ)
      (i txt : String),
      lookupEdit sess i = some txt →
      (∀ g ∈ fields, g.id = i →
        txt.data ≠ toTextChars g.ty g.val ∧
        ∃ err, parseChars g.ty txt.data = .error err) →
      lookupEdit (commitPassAux fields sess idx).session i = some txt ∧
      i ∉ (commitPassAux fields sess idx).committed ∧
      List.Forall₂ (fun g g2 => g.id = i → g2 = g) fields
        (commitPassAux fields sess idx).record ∧
      (commitPassAux fields sess idx).record =
        (commitPassAux fields (removeEdit sess i) idx).record ∧
      (commitPassAux fields sess idx).committed =
        (commitPassAux fields (removeEdit sess i) idx).committed ∧
      (commitPassAux fields sess idx).resizedAt =
        (commitPassAux fields (removeEdit sess i) idx).resizedAt := by
  intro fields
  induction fields with
  | nil =>
    intro sess idx i txt hl hall
    refine ⟨by simpa [commitPassAux] using hl, by simp [commitPassAux],
      ?_, rfl, rfl, rfl⟩
    exact List.Forall₂.nil
  | cons f fs ih =>
    intro sess idx i txt hl hall
    have hall2 : ∀ g ∈ fs, g.id = i →
        txt.data ≠ toTextChars g.ty g.val ∧
        ∃ err, parseChars g.ty txt.data = .error err :=
      fun g hg hgi => hall g (by simp [hg]) hgi
    by_cases hfi : f.id = i
    · -- the failing field itself: both runs take a no-op step
      obtain ⟨hdiff, err, hfail⟩ := hall f (by simp) hfi
      have hl1 : lookupEdit sess f.id = some txt := by rw [hfi]; exact hl
      have hs1 : commitStep f sess = (f, sess, none, false) :=
        commitStep_eq_noop_fail f sess txt err hl1 hdiff hfail
      have hl2 : lookupEdit (removeEdit sess i) f.id = none := by
        rw [hfi]
        exact lookupEdit_removeEdit_self sess i
      have hs2 : commitStep f (removeEdit sess i) =
          (f, removeEdit sess i, none, false) :=
        commitStep_eq_noop_none f (removeEdit sess i) hl2
      rw [commitPassAux_cons_noop f fs sess idx hs1,
        commitPassAux_cons_noop f fs (removeEdit sess i) idx hs2]
      obtain ⟨h1, h2, h3, h4, h5, h6⟩ := ih sess (idx + 1) i txt hl hall2
      exact ⟨h1, h2, List.Forall₂.cons (fun _ => rfl) h3,
        by rw [h4], h5, h6⟩
    · -- an unrelated field: removing the failing entry does not change
      -- what this field's step sees
      have hlf : lookupEdit (removeEdit sess i) f.id = lookupEdit sess f.id :=
        lookupEdit_removeEdit_ne sess i f.id (fun h => hfi h.symm)
      cases hlk : lookupEdit sess f.id with
      | none =>
        have hs1 := commitStep_eq_noop_none f sess hlk
        have hs2 := commitStep_eq_noop_none f (removeEdit sess i)
          (by rw [hlf]; exact hlk)
        rw [commitPassAux_cons_noop f fs sess idx hs1,
          commitPassAux_cons_noop f fs (removeEdit sess i) idx hs2]
        obtain ⟨h1, h2, h3, h4, h5, h6⟩ := ih sess (idx + 1) i txt hl hall2
        exact ⟨h1, h2, List.Forall₂.cons (fun _ => rfl) h3,
          by rw [h4], h5, h6⟩
      | some txt2 =>
        by_cases heq : txt2.data = toTextChars f.ty f.val
        · have hs1 := commitStep_eq_noop_eqtext f sess txt2 hlk heq
          have hs2 := commitStep_eq_noop_eqtext f (removeEdit sess i) txt2
            (by rw [hlf]; exact hlk) heq
          rw [commitPassAux_cons_noop f fs sess idx hs1,
            commitPassAux_cons_noop f fs (removeEdit sess i) idx hs2]
          obtain ⟨h1, h2, h3, h4, h5, h6⟩ := ih sess (idx + 1) i txt hl hall2
          exact ⟨h1, h2, List.Forall₂.cons (fun _ => rfl) h3,
            by rw [h4], h5, h6⟩
        · cases hp : parseChars f.ty txt2.data with
          | error err2 =>
            have hs1 := commitStep_eq_noop_fail f sess txt2 err2 hlk heq hp
            have hs2 := commitStep_eq_noop_fail f (removeEdit sess i) txt2
              err2 (by rw [hlf]; exact hlk) heq hp
            rw [commitPassAux_cons_noop f fs sess idx hs1,
              commitPassAux_cons_noop f fs (removeEdit sess i) idx hs2]
            obtain ⟨h1, h2, h3, h4, h5, h6⟩ := ih sess (idx + 1) i txt hl hall2
            exact ⟨h1, h2, List.Forall₂.cons (fun _ => rfl) h3,
              by rw [h4], h5, h6⟩
          | ok v =>
            have hs1 := commitStep_eq_ok f sess txt2 v hlk heq hp
            have hs2 := commitStep_eq_ok f (removeEdit sess i) txt2 v
              (by rw [hlf]; exact hlk) heq hp
            rw [commitPassAux_cons_write f ⟨f.id, f.ty, v⟩ fs sess
                (removeEdit sess f.id) idx _ hs1,
              commitPassAux_cons_write f ⟨f.id, f.ty, v⟩ fs
                (removeEdit sess i) (removeEdit (removeEdit sess i) f.id)
                idx _ hs2]
            rw [removeEdit_comm sess i f.id]
            have hl' : lookupEdit (removeEdit sess f.id) i = some txt := by
              rw [lookupEdit_removeEdit_ne sess f.id i hfi]
              exact hl
            cases hr : isVarLen f.ty &&
                decide ((encodeV v).length ≠ (encodeV f.val).length) with
            | true =>
              simp only [if_true]
              refine ⟨?_, ?_, ?_, by trivial, by trivial, by trivial⟩
              · exact hl'
              · simp only [List.mem_cons, List.not_mem_nil, or_false]
                exact fun h => hfi h.symm
              · exact List.Forall₂.cons (fun h => absurd h hfi)
                  (List.forall₂_same.mpr (fun g hg => fun _ => rfl))
            | false =>
              simp only [Bool.false_eq_true, if_false]
              obtain ⟨h1, h2, h3, h4, h5, h6⟩ :=
                ih (removeEdit sess f.id) (idx + 1) i txt hl' hall2
              refine ⟨h1, ?_, ?_, by rw [h4], by rw [h5], h6⟩
              · simp only [List.mem_cons, not_or]
                exact ⟨fun h => hfi h.symm, h2⟩
              · exact List.Forall₂.cons (fun h => absurd h hfi) h3

/-- C2: for a field whose pending edit text fails to parse during a
commit pass, the edit-session entry is preserved (not cleared), nothing
is written for that field (its id is never committed and its record node
keeps its old value), and the other fields' commits are unaffected: the
pass's record, committed list and resize outcome coincide with those of
the same pass run without the failing entry. -/
theorem commit_parse_failure_preserves
    (fields : List FieldNode) (sess : List (String × String))
    (f : FieldNode) (txt : String) (err : ParseErr)
    (hnd : (fields.map FieldNode.id).Nodup)
    (hmem : f ∈ fields)
    (hl : lookupEdit sess f.id = some txt)
    (hdiff : txt.data ≠ toTextChars f.ty f.val)
    (hfail : parseChars f.ty txt.data = .error err) :
    lookupEdit (commitPass fields sess).session f.id = some txt ∧
    f.id ∉ (commitPass fields sess).committed ∧
    List.Forall₂ (fun g g2 => g.id = f.id → g2 = g) fields
      (commitPass fields sess).record ∧
    (commitPass fields sess).record =
      (commitPass fields (removeEdit sess f.id)).record ∧
    (commitPass fields sess).committed =
      (commitPass fields (removeEdit sess f.id)).committed ∧
    (commitPass fields sess).resizedAt =
      (commitPass fields (removeEdit sess f.id)).resizedAt := by
  have hall : ∀ g ∈ fields, g.id = f.id →
      txt.data ≠ toTextChars g.ty g.val ∧
      ∃ e, parseChars g.ty txt.data = .error e := by
    intro g hg hgi
    have hgf : g = f := List.inj_on_of_nodup_map hnd hg hmem hgi
    subst hgf
    exact ⟨hdiff, err, hfail⟩
  exact commitPassAux_failed_entry fields sess 0 f.id txt hl hall

/-- Witness for C2: field "a" has unparsable pending text "zzz" while
field "b" has a good edit; the pass keeps "a"'s entry, never commits "a",
and produces the same record as the pass without "a"'s entry. -/
theorem commit_parse_failure_preserves_witness :
    lookupEdit (commitPass
        [⟨"a", .scalar .boolTy, .vBool false⟩,
          ⟨"b", .scalar .boolTy, .vBool false⟩]
        [("a", "zzz"), ("b", "true")]).session "a" = some "zzz" ∧
    "a" ∉ (commitPass
        [⟨"a", .scalar .boolTy, .vBool false⟩,
          ⟨"b", .scalar .boolTy, .vBool false⟩]
        [("a", "zzz"), ("b", "true")]).committed ∧
    (commitPass
        [⟨"a", .scalar .boolTy, .vBool false⟩,
          ⟨"b", .scalar .boolTy, .vBool false⟩]
        [("a", "zzz"), ("b", "true")]).record =
      (commitPass
        [⟨"a", .scalar .boolTy, .vBool false⟩,
          ⟨"b", .scalar .boolTy, .vBool false⟩]
        (removeEdit [("a", "zzz"), ("b", "true")] "a")).record := by
  have h := commit_parse_failure_preserves
    [⟨"a", .scalar .boolTy, .vBool false⟩,
      ⟨"b", .scalar .boolTy, .vBool false⟩]
    [("a", "zzz"), ("b", "true")]
    ⟨"a", .scalar .boolTy, .vBool false⟩ "zzz" ParseErr.kParseError
    (by decide) (List.mem_cons_self _ _) rfl (by decide) rfl
  exact ⟨h.1, h.2.1, h.2.2.2.1⟩

/-! ### Byte-codec roundtrip and canonicalization (CopyTable) -/

theorem decNat_encNat (n : ℕ) (rest : List ℕ) :
    decNat (encNat n ++ rest) = some (n, rest) := by
  have h : encNat n ++ rest =
      (natDigits 256 n).length :: (natDigits 256 n ++ rest) := rfl
  have hlen : ¬ ((natDigits 256 n ++ rest).length <
      (natDigits 256 n).length) := by
    rw [List.length_append]
    omega
  have hod : ofDigits 256 (natDigits 256 n) = n :=
    ofDigits_digitsAux (by norm_num) n n le_rfl
  rw [h]
  simp only [decNat, if_neg hlen, List.take_left, List.drop_left]
  rw [hod]

theorem decInt_encInt (i : ℤ) (rest : List ℕ) :
    decInt (encInt i ++ rest) = some (i, rest) := by
  have h : encInt i ++ rest =
      (if i < 0 then 1 else 0) :: (encNat i.natAbs ++ rest) := rfl
  have hval : (if ((if i < 0 then (1 : ℕ) else 0) = 1)
      then -(i.natAbs : ℤ) else (i.natAbs : ℤ)) = i := by
    by_cases hi : i < 0
    · rw [if_pos hi, if_pos rfl]
      have h2 := Int.ofNat_natAbs_of_nonpos (le_of_lt hi)
      omega
    · rw [if_neg hi, if_neg (by norm_num)]
      exact Int.natAbs_of_nonneg (not_lt.mp hi)
  rw [h]
  simp only [decInt, decNat_encNat, Option.map_some']
  rw [hval]

theorem fieldTy_size_lt {t : FieldTy} {ts : List FieldTy} (h : t ∈ ts) :
    sizeOf t < sizeOf (FieldTy.struct ts) := by
  have h1 : sizeOf t < sizeOf ts := List.sizeOf_lt_of_mem h
  have h2 : sizeOf (FieldTy.struct ts) = 1 + sizeOf ts := by
    simp
  omega

theorem fieldTy_size_rec (P : FieldTy → Prop)
    (ih : ∀ t, (∀ u, sizeOf u < sizeOf t → P u) → P t) : ∀ t, P t := by
  have h : ∀ (n : ℕ) (u : FieldTy), sizeOf u ≤ n → P u := by
    intro n
    induction n with
    | zero =>
      intro u hu
      exact ih u (fun x hx => absurd (Nat.lt_of_lt_of_le hx hu) (by omega))
    | succ k ihk =>
      intro u hu
      exact ih u (fun x hx => ihk x (by omega))
  exact fun t => h (sizeOf t) t le_rfl

/-- Struct members decoded from a buffer all have their field's shape,
assuming that holds of each member type. -/
theorem decodeList_shape_of :
    ∀ (ts : List FieldTy),
      (∀ t ∈ ts, ∀ bs v rest, decodeV t bs = some (v, rest) →
        shape t v = true) →
      ∀ bs vs rest, decodeList ts bs = some (vs, rest) →
        shapeList ts vs = true := by
  intro ts
  induction ts with
  | nil =>
    intro _ bs vs rest h
    simp only [decodeList, Option.some.injEq, Prod.mk.injEq] at h
    rw [← h.1]
    rfl
  | cons t ts ih =>
    intro hmem bs vs rest h
    cases hd : decodeV t bs with
    | none =>
      simp only [decodeList, hd] at h
      exact Option.noConfusion h
    | some p =>
      obtain ⟨v1, bs2⟩ := p
      cases hd2 : decodeList ts bs2 with
      | none =>
        simp only [decodeList, hd, hd2] at h
        exact Option.noConfusion h
      | some q =>
        obtain ⟨vs2, bs3⟩ := q
        simp only [decodeList, hd, hd2, Option.some.injEq,
          Prod.mk.injEq] at h
        rw [← h.1]
        simp only [shapeList, Bool.and_eq_true]
        exact ⟨hmem t (by simp) bs v1 bs2 hd,
          ih (fun u hu => hmem u (by simp [hu])) bs2 vs2 bs3 hd2⟩

/-- Whatever the decoder produces has the schema's shape. -/
theorem decodeV_shape :
    ∀ (ty : FieldTy) (bs : List ℕ) (v : Value) (rest : List ℕ),
      decodeV ty bs = some (v, rest) → shape ty v = true := by
  refine fieldTy_size_rec
    (fun ty => ∀ bs v rest, decodeV ty bs = some (v, rest) →
      shape ty v = true) ?_
  intro ty iht bs v rest h
  cases ty with
  | scalar st =>
    cases st with
    | boolTy =>
      cases bs with
      | nil => simp [decodeV] at h
      | cons b bs =>
        simp only [decodeV, Option.some.injEq, Prod.mk.injEq] at h
        rw [← h.1]
        rfl
    | intTy lo hi =>
      cases hd : decInt bs with
      | none =>
        simp only [decodeV, hd, Option.map_none'] at h
        exact Option.noConfusion h
      | some p =>
        simp only [decodeV, hd, Option.map_some', Option.some.injEq,
          Prod.mk.injEq] at h
        rw [← h.1]
        rfl
    | floatTy =>
      cases bs with
      | nil => simp [decodeV] at h
      | cons s bs =>
        cases hd1 : decNat bs with
        | none =>
          simp only [decodeV, hd1] at h
          exact Option.noConfusion h
        | some p =>
          obtain ⟨ip, bs2⟩ := p
          cases hd2 : decNat bs2 with
          | none =>
            simp only [decodeV, hd1, hd2] at h
            exact Option.noConfusion h
          | some q =>
            obtain ⟨len, bs3⟩ := q
            simp only [decodeV, hd1, hd2] at h
            split at h
            · cases h
            · simp only [Option.some.injEq, Prod.mk.injEq] at h
              rw [← h.1]
              rfl
    | enumTy e =>
      cases hd : decInt bs with
      | none =>
        simp only [decodeV, hd, Option.map_none'] at h
        exact Option.noConfusion h
      | some p =>
        simp only [decodeV, hd, Option.map_some', Option.some.injEq,
          Prod.mk.injEq] at h
        rw [← h.1]
        rfl
  | str =>
    cases bs with
    | nil => simp [decodeV] at h
    | cons len bs =>
      simp only [decodeV] at h
      split at h
      · cases h
      · simp only [Option.some.injEq, Prod.mk.injEq] at h
        rw [← h.1]
        rfl
  | struct fields =>
    cases hd : decodeList fields bs with
    | none =>
      simp only [decodeV, hd, Option.map_none'] at h
      exact Option.noConfusion h
    | some p =>
      obtain ⟨vs, rest2⟩ := p
      simp only [decodeV, hd, Option.map_some', Option.some.injEq,
        Prod.mk.injEq] at h
      rw [← h.1]
      simp only [shape]
      exact decodeList_shape_of fields
        (fun t ht => iht t (fieldTy_size_lt ht)) bs vs rest2 hd

/-- Decoding right after encoding a member list recovers it, assuming
that holds of each member. -/
theorem decodeList_encodeList_of :
    ∀ (ts : List FieldTy) (vs : List Value),
      (∀ w ∈ vs, ∀ ty rest, shape ty w = true →
        decodeV ty (encodeV w ++ rest) = some (w, rest)) →
      shapeList ts vs = true →
      ∀ rest, decodeList ts (encodeList vs ++ rest) = some (vs, rest) := by
  intro ts
  induction ts with
  | nil =>
    intro vs _ hs rest
    cases vs with
    | nil => simp [decodeList, encodeList]
    | cons w ws => simp [shapeList] at hs
  | cons t ts ih =>
    intro vs hmem hs rest
    cases vs with
    | nil => simp [shapeList] at hs
    | cons w ws =>
      simp only [shapeList, Bool.and_eq_true] at hs
      have h : encodeList (w :: ws) ++ rest =
          encodeV w ++ (encodeList ws ++ rest) := by
        simp [encodeList, List.append_assoc]
      rw [h]
      simp only [decodeList,
        hmem w (by simp) t (encodeList ws ++ rest) hs.1,
        ih ws (fun u hu => hmem u (by simp [hu])) hs.2 rest]

/-- Encode-then-decode roundtrip: decoding the canonical encoding of a
shape-correct value from the front of a buffer recovers the value. -/
theorem decodeV_encodeV :
    ∀ (v : Value) (ty : FieldTy), shape ty v = true →
      ∀ rest, decodeV ty (encodeV v ++ rest) = some (v, rest) := by
  refine value_size_rec
    (fun v => ∀ ty : FieldTy, shape ty v = true →
      ∀ rest, decodeV ty (encodeV v ++ rest) = some (v, rest)) ?_
  intro v ihv ty
  cases ty with
  | scalar st =>
    cases st with
    | boolTy =>
      cases v <;> intro hs rest <;>
        simp only [shape, Bool.false_eq_true] at hs
      case vBool b => cases b <;> rfl
    | intTy lo hi =>
      cases v <;> intro hs rest <;>
        simp only [shape, Bool.false_eq_true] at hs
      case vInt i =>
        simp only [encodeV, decodeV]
        rw [decInt_encInt]
        rfl
    | floatTy =>
      cases v <;> intro hs rest <;>
        simp only [shape, Bool.false_eq_true] at hs
      case vFloat f =>
        obtain ⟨sgn, ip, frac⟩ := f
        have hlen : ¬ ((frac ++ rest).length < frac.length) := by
          rw [List.length_append]
          omega
        cases sgn with
        | false =>
          have h : encodeV (.vFloat ⟨false, ip, frac⟩) ++ rest =
              0 :: (encNat ip ++
                (encNat frac.length ++ (frac ++ rest))) := by
            simp [encodeV, List.append_assoc]
          rw [h]
          simp only [decodeV, decNat_encNat]
          rw [if_neg hlen]
          simp [List.take_left, List.drop_left]
        | true =>
          have h : encodeV (.vFloat ⟨true, ip, frac⟩) ++ rest =
              1 :: (encNat ip ++
                (encNat frac.length ++ (frac ++ rest))) := by
            simp [encodeV, List.append_assoc]
          rw [h]
          simp only [decodeV, decNat_encNat]
          rw [if_neg hlen]
          simp [List.take_left, List.drop_left]
    | enumTy e =>
      cases v <;> intro hs rest <;>
        simp only [shape, Bool.false_eq_true] at hs
      case vEnum i =>
        simp only [encodeV, decodeV]
        rw [decInt_encInt]
        rfl
  | str =>
    cases v <;> intro hs rest <;>
      simp only [shape, Bool.false_eq_true] at hs
    case vStr s =>
      obtain ⟨cs⟩ := s
      have h : encodeV (.vStr ⟨cs⟩) ++ rest =
          cs.length :: (cs.map Char.toNat ++ rest) := by
        simp [encodeV]
      have hlenm : (cs.map Char.toNat).length = cs.length :=
        List.length_map cs Char.toNat
      have hlen : ¬ ((cs.map Char.toNat ++ rest).length < cs.length) := by
        rw [List.length_append, hlenm]
        omega
      rw [h]
      simp only [decodeV]
      rw [if_neg hlen, List.take_left' hlenm, List.drop_left' hlenm]
      have hmap : List.map Char.ofNat (List.map Char.toNat cs) = cs := by
        rw [List.map_map]
        have hcomp : Char.ofNat ∘ Char.toNat = id :=
          funext fun c => Char.ofNat_toNat c
        rw [hcomp, List.map_id]
      rw [hmap]
  | struct fields =>
    cases v <;> intro hs rest <;>
      simp only [shape, Bool.false_eq_true] at hs
    case vStruct vs =>
      have hdl := decodeList_encodeList_of fields vs
        (fun w hw ty2 rest2 hs2 =>
          ihv w (value_size_lt hw) ty2 hs2 rest2) hs rest
      simp only [encodeV, decodeV, hdl, Option.map_some']

/-- A successful decode from the empty buffer can only have consumed and
produced nothing: the value re-encodes to the empty buffer. -/
theorem decodeList_nil_of :
    ∀ (ts : List FieldTy),
      (∀ t ∈ ts, ∀ v rest, decodeV t [] = some (v, rest) →
        encodeV v = [] ∧ rest = []) →
      ∀ vs rest, decodeList ts [] = some (vs, rest) →
        encodeList vs = [] ∧ rest = [] := by
  intro ts
  induction ts with
  | nil =>
    intro _ vs rest h
    simp only [decodeList, Option.some.injEq, Prod.mk.injEq] at h
    exact ⟨by rw [← h.1]; rfl, h.2.symm⟩
  | cons t ts ih =>
    intro hmem vs rest h
    cases hd : decodeV t [] with
    | none =>
      simp only [decodeList, hd] at h
      exact Option.noConfusion h
    | some p =>
      obtain ⟨v1, bs2⟩ := p
      obtain ⟨he1, hb2⟩ := hmem t (by simp) v1 bs2 hd
      subst hb2
      cases hd2 : decodeList ts [] with
      | none =>
        simp only [decodeList, hd, hd2] at h
        exact Option.noConfusion h
      | some q =>
        obtain ⟨vs2, bs3⟩ := q
        obtain ⟨he2, hb3⟩ :=
          ih (fun u hu => hmem u (by simp [hu])) vs2 bs3 hd2
        simp only [decodeList, hd, hd2, Option.some.injEq,
          Prod.mk.injEq] at h
        refine ⟨?_, ?_⟩
        · rw [← h.1]
          simp [encodeList, he1, he2]
        · rw [← h.2]
          exact hb3

theorem decodeV_nil :
    ∀ (ty : FieldTy) (v : Value) (rest : List ℕ),
      decodeV ty [] = some (v, rest) → encodeV v = [] ∧ rest = [] := by
  refine fieldTy_size_rec
    (fun ty => ∀ v rest, decodeV ty [] = some (v, rest) →
      encodeV v = [] ∧ rest = []) ?_
  intro ty iht v rest h
  cases ty with
  | scalar st => cases st <;> simp [decodeV, decInt] at h
  | str => simp [decodeV] at h
  | struct fields =>
    cases hd : decodeList fields [] with
    | none =>
      simp only [decodeV, hd, Option.map_none'] at h
      exact Option.noConfusion h
    | some p =>
      obtain ⟨vs, rest2⟩ := p
      obtain ⟨he, hr⟩ := decodeList_nil_of fields
        (fun u hu v1 r1 hd1 => iht u (fieldTy_size_lt hu) v1 r1 hd1)
        vs rest2 hd
      simp only [decodeV, hd, Option.map_some', Option.some.injEq,
        Prod.mk.injEq] at h
      refine ⟨?_, ?_⟩
      · rw [← h.1]
        simpa [encodeV] using he
      · rw [← h.2]
        exact hr

/-- The empty buffer canonicalizes to itself. -/
theorem canonBuffer_nil (rootTy : FieldTy) :
    canonBuffer rootTy [] = [] := by
  unfold canonBuffer
  cases hd : decodeV rootTy [] with
  | none => rfl
  | some p =>
    obtain ⟨v, rest⟩ := p
    exact (decodeV_nil rootTy v rest hd).1

/-- Canonicalization is a fixed point: re-canonicalizing a canonical
buffer changes nothing. -/
theorem canonBuffer_fixed (rootTy : FieldTy) (bs : List ℕ) :
    canonBuffer rootTy (canonBuffer rootTy bs) = canonBuffer rootTy bs := by
  cases hd : decodeV rootTy bs with
  | none =>
    have h1 : canonBuffer rootTy bs = [] := by
      unfold canonBuffer
      rw [hd]
    rw [h1]
    exact canonBuffer_nil rootTy
  | some p =>
    obtain ⟨v, rest⟩ := p
    have h1 : canonBuffer rootTy bs = encodeV v := by
      unfold canonBuffer
      rw [hd]
    have hs := decodeV_shape rootTy bs v rest hd
    have hdd : decodeV rootTy (encodeV v ++ []) = some (v, []) :=
      decodeV_encodeV v rootTy hs []
    rw [List.append_nil] at hdd
    rw [h1]
    unfold canonBuffer
    rw [hdd]

/-- Replacing the editor's buffer with its own exported copy leaves the
canonical re-encoding of the previous buffer in the editor (empty export
and empty buffer coincide on the empty canonicalization). -/
theorem replaceExport_flatbuffer (rootTy : FieldTy) (names : List String)
    (s : EditorState) :
    (setFlatbufferData rootTy names (getFlatbufferCopy rootTy s) s).flatbuffer
      = canonBuffer rootTy s.flatbuffer := by
  by_cases h0 : s.flatbuffer = []
  · have hg : getFlatbufferCopy rootTy s = none := by
      unfold getFlatbufferCopy
      rw [if_pos h0]
    rw [hg, h0]
    rw [canonBuffer_nil rootTy]
    simp [setFlatbufferData]
  · have hg : getFlatbufferCopy rootTy s =
        some (canonBuffer rootTy s.flatbuffer) := by
      unfold getFlatbufferCopy
      rw [if_neg h0]
    rw [hg]
    simp only [setFlatbufferData]
    exact canonBuffer_fixed rootTy s.flatbuffer

/-- C7: re-ingesting an exported copy is idempotent after one round:
`Replace(ExportCopy())` applied twice yields byte-identical buffers, the
canonical reflection-driven re-encoding being a fixed point of
ingest-then-export, even though the first export may differ
byte-for-byte from the original input. -/
theorem replace_export_idempotent (rootTy : FieldTy) (names : List String)
    (s : EditorState) :
    (setFlatbufferData rootTy names
        (getFlatbufferCopy rootTy
          (setFlatbufferData rootTy names (getFlatbufferCopy rootTy s) s))
        (setFlatbufferData rootTy names
          (getFlatbufferCopy rootTy s) s)).flatbuffer =
      (setFlatbufferData rootTy names
        (getFlatbufferCopy rootTy s) s).flatbuffer := by
  rw [replaceExport_flatbuffer rootTy names
    (setFlatbufferData rootTy names (getFlatbufferCopy rootTy s) s),
    replaceExport_flatbuffer rootTy names s]
  exact canonBuffer_fixed rootTy s.flatbuffer

end SceneLab
